import Mathlib

/-!
Verification development for the xlbudget ledger-update engine
(`src/xlbudget/rwxlb.py`, `src/xlbudget/inputformat.py`,
`src/xlbudget/commands.py`).

Shallow embedding conventions:

* A transaction record (one data row of a month table: columns
  `Date`, `Description`, `Amount`) is `Txn`.  Dates are calendar dates
  `(year, month, day)`; amounts are modelled as exact integers since the
  code performs no arithmetic on them, only equality tests and ordering.
* Python's `str` comparison (used by `DataFrame.sort_values`) is
  code-point lexicographic; it is embedded as `strLt` on the character
  lists of Lean strings (Lean `Char` values are Unicode code points).
* `DataFrame`s are lists of rows; row order is the dataframe order.
-/

/-- A calendar date, as stored in the `Date` column of a month table. -/
structure Date where
  year : Nat
  month : Nat
  day : Nat
deriving DecidableEq, Repr

/-- One transaction record: a data row of a month table, with the three
canonical columns `Date`, `Description`, `Amount`. -/
structure Txn where
  date : Date
  description : String
  amount : Int
deriving DecidableEq, Repr

/-- Code-point lexicographic order on character lists: the embedding of
Python's `<` on strings, which `sort_values` uses for the `Description`
column. -/
def charsLt : List Char → List Char → Bool
  | [], [] => false
  | [], _ :: _ => true
  | _ :: _, [] => false
  | a :: as, b :: bs =>
    decide (a.toNat < b.toNat) || (decide (a.toNat = b.toNat) && charsLt as bs)

/-- Python string `<` on Lean strings. -/
def strLt (a b : String) : Bool := charsLt a.data b.data

/-- Strict lexicographic order on dates (year, then month, then day):
how pandas orders a datetime column. -/
def dateLt (a b : Date) : Bool :=
  decide (a.year < b.year) ||
    (decide (a.year = b.year) &&
      (decide (a.month < b.month) ||
        (decide (a.month = b.month) && decide (a.day < b.day))))

/-- Non-strict date order. -/
def dateLe (a b : Date) : Bool := !(dateLt b a)

/-- The full-row order used by `df.sort_values(by=list(df.columns))` in
`update_xlbudget`: lexicographic on (`Date`, `Description`, `Amount`). -/
def txnLe (a b : Txn) : Bool :=
  dateLt a.date b.date ||
    (decide (a.date = b.date) &&
      (strLt a.description b.description ||
        (decide (a.description = b.description) && decide (a.amount ≤ b.amount))))

theorem charsLt_irrefl (a : List Char) : charsLt a a = false := by
  induction a with
  | nil => rfl
  | cons c t ih => simp [charsLt, ih]

theorem charsLt_trans {a b c : List Char}
    (h1 : charsLt a b = true) (h2 : charsLt b c = true) : charsLt a c = true := by
  induction a generalizing b c with
  | nil =>
    cases b with
    | nil => simp [charsLt] at h1
    | cons bh bt =>
      cases c with
      | nil => simp [charsLt] at h2
      | cons ch ct => simp [charsLt]
  | cons ah at' ih =>
    cases b with
    | nil => simp [charsLt] at h1
    | cons bh bt =>
      cases c with
      | nil => simp [charsLt] at h2
      | cons ch ct =>
        simp only [charsLt, Bool.or_eq_true, Bool.and_eq_true, decide_eq_true_eq] at h1 h2 ⊢
        rcases h1 with h1 | ⟨h1e, h1r⟩ <;> rcases h2 with h2 | ⟨h2e, h2r⟩
        · exact Or.inl (Nat.lt_trans h1 h2)
        · exact Or.inl (h2e ▸ h1)
        · exact Or.inl (h1e ▸ h2)
        · exact Or.inr ⟨h1e.trans h2e, ih h1r h2r⟩

theorem charsLt_total (a b : List Char) :
    charsLt a b = true ∨ charsLt b a = true ∨ a = b := by
  induction a generalizing b with
  | nil =>
    cases b with
    | nil => exact Or.inr (Or.inr rfl)
    | cons bh bt => exact Or.inl (by simp [charsLt])
  | cons ah at' ih =>
    cases b with
    | nil => exact Or.inr (Or.inl (by simp [charsLt]))
    | cons bh bt =>
      rcases Nat.lt_trichotomy ah.toNat bh.toNat with h | h | h
      · exact Or.inl (by simp [charsLt, h])
      · have hc : ah = bh := Char.ext (UInt32.toNat.inj h)
        rcases ih bt with h' | h' | h'
        · exact Or.inl (by simp [charsLt, h, h'])
        · exact Or.inr (Or.inl (by simp [charsLt, h.symm, h']))
        · exact Or.inr (Or.inr (by rw [hc, h']))
      · exact Or.inr (Or.inl (by simp [charsLt, h]))

theorem strLt_trans {a b c : String}
    (h1 : strLt a b = true) (h2 : strLt b c = true) : strLt a c = true :=
  charsLt_trans h1 h2

theorem strLt_irrefl (a : String) : strLt a a = false := charsLt_irrefl a.data

theorem strLt_total (a b : String) :
    strLt a b = true ∨ strLt b a = true ∨ a = b := by
  rcases charsLt_total a.data b.data with h | h | h
  · exact Or.inl h
  · exact Or.inr (Or.inl h)
  · exact Or.inr (Or.inr (by cases a; cases b; simp only at h; rw [h]))

theorem dateLt_irrefl (a : Date) : dateLt a a = false := by
  simp [dateLt]

theorem dateLt_trans {a b c : Date}
    (h1 : dateLt a b = true) (h2 : dateLt b c = true) : dateLt a c = true := by
  simp only [dateLt, Bool.or_eq_true, Bool.and_eq_true, decide_eq_true_eq] at h1 h2 ⊢
  omega

theorem dateLt_total (a b : Date) :
    dateLt a b = true ∨ dateLt b a = true ∨ a = b := by
  by_cases hab : a = b
  · exact Or.inr (Or.inr hab)
  · have : ¬ (a.year = b.year ∧ a.month = b.month ∧ a.day = b.day) := by
      intro ⟨h1, h2, h3⟩
      exact hab (by cases a; cases b; simp_all)
    simp only [dateLt, Bool.or_eq_true, Bool.and_eq_true, decide_eq_true_eq]
    omega

theorem dateLt_asymm {a b : Date} (h : dateLt a b = true) : dateLt b a = false := by
  simp only [dateLt, Bool.or_eq_true, Bool.and_eq_true, decide_eq_true_eq,
    Bool.or_eq_false_iff, Bool.and_eq_false_iff, decide_eq_false_iff_not] at h ⊢
  omega

/-- The row order as a relation, for use with `List.insertionSort`. -/
def TxnLE (a b : Txn) : Prop := txnLe a b = true

instance : DecidableRel TxnLE := fun a b => by unfold TxnLE; infer_instance

theorem txnLe_refl (a : Txn) : txnLe a a = true := by
  simp [txnLe, dateLt_irrefl]

theorem strLt_asymm {a b : String} (h : strLt a b = true) : strLt b a = false := by
  by_contra hc
  have hba : strLt b a = true := by
    cases hx : strLt b a <;> simp_all
  have := charsLt_trans h hba
  rw [charsLt_irrefl] at this
  exact Bool.false_ne_true this

theorem txnLe_total (a b : Txn) : txnLe a b = true ∨ txnLe b a = true := by
  simp only [txnLe, Bool.or_eq_true, Bool.and_eq_true, decide_eq_true_eq]
  rcases dateLt_total a.date b.date with h | h | h
  · exact Or.inl (Or.inl h)
  · exact Or.inr (Or.inl h)
  · rcases strLt_total a.description b.description with h' | h' | h'
    · exact Or.inl (Or.inr ⟨h, Or.inl h'⟩)
    · exact Or.inr (Or.inr ⟨h.symm, Or.inl h'⟩)
    · rcases Int.le_total a.amount b.amount with h'' | h''
      · exact Or.inl (Or.inr ⟨h, Or.inr ⟨h', h''⟩⟩)
      · exact Or.inr (Or.inr ⟨h.symm, Or.inr ⟨h'.symm, h''⟩⟩)

theorem txnLe_trans {a b c : Txn}
    (h1 : txnLe a b = true) (h2 : txnLe b c = true) : txnLe a c = true := by
  simp only [txnLe, Bool.or_eq_true, Bool.and_eq_true, decide_eq_true_eq] at h1 h2 ⊢
  rcases h1 with h1 | ⟨h1e, h1r⟩ <;> rcases h2 with h2 | ⟨h2e, h2r⟩
  · exact Or.inl (dateLt_trans h1 h2)
  · exact Or.inl (h2e ▸ h1)
  · exact Or.inl (h1e ▸ h2)
  · refine Or.inr ⟨h1e.trans h2e, ?_⟩
    rcases h1r with h1r | ⟨h1s, h1a⟩ <;> rcases h2r with h2r | ⟨h2s, h2a⟩
    · exact Or.inl (strLt_trans h1r h2r)
    · exact Or.inl (h2s ▸ h1r)
    · exact Or.inl (h1s ▸ h2r)
    · exact Or.inr ⟨h1s.trans h2s, le_trans h1a h2a⟩

theorem txnLe_antisymm {a b : Txn}
    (h1 : txnLe a b = true) (h2 : txnLe b a = true) : a = b := by
  simp only [txnLe, Bool.or_eq_true, Bool.and_eq_true, decide_eq_true_eq] at h1 h2
  rcases h1 with h1 | ⟨h1e, h1r⟩
  · rcases h2 with h2 | ⟨h2e, h2r⟩
    · have := dateLt_asymm h1
      rw [h2] at this
      exact absurd this (by decide : (true : Bool) ≠ false)
    · rw [h2e] at h1
      rw [dateLt_irrefl] at h1
      exact absurd h1 Bool.false_ne_true
  · rcases h2 with h2 | ⟨h2e, h2r⟩
    · rw [h1e] at h2
      rw [dateLt_irrefl] at h2
      exact absurd h2 Bool.false_ne_true
    · rcases h1r with h1r | ⟨h1s, h1a⟩
      · rcases h2r with h2r | ⟨h2s, h2a⟩
        · have := strLt_asymm h1r
          rw [h2r] at this
          exact absurd this (by decide : (true : Bool) ≠ false)
        · rw [h2s] at h1r
          rw [strLt_irrefl] at h1r
          exact absurd h1r Bool.false_ne_true
      · rcases h2r with h2r | ⟨h2s, h2a⟩
        · rw [h1s] at h2r
          rw [strLt_irrefl] at h2r
          exact absurd h2r Bool.false_ne_true
        · cases a; cases b
          simp_all [le_antisymm h1a h2a]
          omega

instance : IsTotal Txn TxnLE := ⟨txnLe_total⟩

instance : IsTrans Txn TxnLE := ⟨fun _ _ _ => txnLe_trans⟩

instance : IsAntisymm Txn TxnLE := ⟨fun _ _ => txnLe_antisymm⟩

instance : IsRefl Txn TxnLE := ⟨txnLe_refl⟩

/-!
Decimal printing and parsing of row numbers.  `TablePosition.get_ref`
builds range strings with Python f-strings (`str(int)`, decimal), and
`TablePosition.__init__` parses them back through openpyxl's
`coordinate_from_string` / `column_index_from_string` (a
`[A-Za-z]+ digits+` split followed by `int(...)`).  Both directions are
embedded below on the character lists of Lean strings.
-/

/-- One decimal digit character, `'0'`..`'9'` for `n < 10`. -/
def decDigitChar (n : Nat) : Char := Char.ofNat (48 + n)

/-- Fuel-driven decimal printer (the fuel is only there to make the
recursion structural; `fuel ≥ n` suffices). -/
def decDigitsAux : Nat → Nat → List Char
  | 0, _ => []
  | fuel + 1, n =>
    if n < 10 then [decDigitChar n]
    else decDigitsAux fuel (n / 10) ++ [decDigitChar (n % 10)]

/-- The decimal digits of `n`, most significant first: the embedding of
Python's `str` on a nonnegative `int`. -/
def decDigits (n : Nat) : List Char := decDigitsAux (n + 1) n

/-- Python `str(n)` for a nonnegative `int n`. -/
def natToDecStr (n : Nat) : String := String.mk (decDigits n)

/-- The value of a decimal digit string: the embedding of Python's
`int` on a string of digits. -/
def digitsToNat (cs : List Char) : Nat :=
  cs.foldl (fun a c => a * 10 + (c.toNat - 48)) 0

theorem decDigitsAux_fuel {fuel fuel' n : Nat} (h : n < fuel) (h' : n < fuel') :
    decDigitsAux fuel n = decDigitsAux fuel' n := by
  induction fuel generalizing fuel' n with
  | zero => omega
  | succ f ih =>
    cases fuel' with
    | zero => omega
    | succ f' =>
      simp only [decDigitsAux]
      by_cases h10 : n < 10
      · simp [h10]
      · have hd : n / 10 < n := Nat.div_lt_self (by omega) (by omega)
        simp only [h10, if_false]
        rw [ih (show n / 10 < f by omega) (show n / 10 < f' by omega)]

theorem decDigits_ne_nil (n : Nat) : decDigits n ≠ [] := by
  unfold decDigits decDigitsAux
  by_cases h : n < 10 <;> simp [h]

/-- The character class `[A-Za-z]` of openpyxl's coordinate regex. -/
def isAsciiAlpha (c : Char) : Bool :=
  (decide (65 ≤ c.toNat) && decide (c.toNat ≤ 90)) ||
    (decide (97 ≤ c.toNat) && decide (c.toNat ≤ 122))

/-- The character class `\d` of openpyxl's coordinate regex (ASCII). -/
def isAsciiDigit (c : Char) : Bool :=
  decide (48 ≤ c.toNat) && decide (c.toNat ≤ 57)

theorem decDigitChar_isDigit {n : Nat} (h : n < 10) :
    isAsciiDigit (decDigitChar n) = true := by
  interval_cases n <;> decide

theorem decDigits_all_digits (n : Nat) :
    ∀ c ∈ decDigits n, isAsciiDigit c = true := by
  induction n using Nat.strong_induction_on with
  | _ n ih =>
    intro c hc
    unfold decDigits decDigitsAux at hc
    by_cases h : n < 10
    · simp only [h, if_true, List.mem_singleton] at hc
      exact hc ▸ decDigitChar_isDigit h
    · simp only [h, if_false, List.mem_append, List.mem_singleton] at hc
      rcases hc with hc | hc
      · have hd : n / 10 < n := Nat.div_lt_self (by omega) (by omega)
        have : decDigitsAux n (n / 10) = decDigits (n / 10) :=
          decDigitsAux_fuel (by omega) (by omega)
        rw [this] at hc
        exact ih (n / 10) hd c hc
      · exact hc ▸ decDigitChar_isDigit (by omega)

theorem decDigitChar_toNat {n : Nat} (h : n < 10) :
    (decDigitChar n).toNat = 48 + n := by
  interval_cases n <;> decide

theorem digitsToNat_append (a b : List Char) :
    digitsToNat (a ++ b) =
      b.foldl (fun a c => a * 10 + (c.toNat - 48)) (digitsToNat a) := by
  simp [digitsToNat, List.foldl_append]

theorem digitsToNat_decDigits (n : Nat) : digitsToNat (decDigits n) = n := by
  induction n using Nat.strong_induction_on with
  | _ n ih =>
    unfold decDigits decDigitsAux
    by_cases h : n < 10
    · simp only [h, if_true]
      simp [digitsToNat, decDigitChar_toNat h]
    · simp only [h, if_false]
      have hd : n / 10 < n := Nat.div_lt_self (by omega) (by omega)
      have hfuel : decDigitsAux n (n / 10) = decDigits (n / 10) :=
        decDigitsAux_fuel (by omega) (by omega)
      rw [hfuel, digitsToNat_append, ih (n / 10) hd]
      simp [List.foldl, decDigitChar_toNat (Nat.mod_lt n (by omega) : n % 10 < 10)]
      omega

theorem decDigits_inj {a b : Nat} (h : decDigits a = decDigits b) : a = b := by
  have := digitsToNat_decDigits a
  rw [h, digitsToNat_decDigits] at this
  omega

theorem natToDecStr_inj {a b : Nat} (h : natToDecStr a = natToDecStr b) : a = b := by
  apply decDigits_inj
  have : (natToDecStr a).data = (natToDecStr b).data := by rw [h]
  simpa [natToDecStr] using this

/-!
The embedding of openpyxl coordinate utilities used by `TablePosition`.
-/

/-- openpyxl's `column_index_from_string`: bijective base-26 value of a
column-letter string (`"A"` = 1). -/
def column_index_from_string (s : String) : Nat :=
  s.data.foldl (fun acc c => acc * 26 + (c.toUpper.toNat - 64)) 0

/-- openpyxl's `get_column_letter`, fuel-driven to keep the recursion
structural (`fuel ≥ n` suffices). -/
def colLetterAux : Nat → Nat → String
  | 0, _ => ""
  | fuel + 1, n =>
    if n = 0 then ""
    else colLetterAux fuel ((n - 1) / 26) ++ String.mk [Char.ofNat (65 + (n - 1) % 26)]

/-- The column letters for 1-based column index `n`. -/
def get_column_letter (n : Nat) : String := colLetterAux n n

/-- openpyxl's `coordinate_from_string`: split a cell coordinate such as
`"C4"` into column letters and row number.  The source regex is
`[A-Za-z]{1,3}` followed by `\d+` (with optional `$` markers, unreachable
here); a non-matching coordinate raises, embedded as `none`. -/
def coordinate_from_string (s : String) : Option (String × Nat) :=
  let letters := s.data.takeWhile isAsciiAlpha
  let rest := s.data.dropWhile isAsciiAlpha
  if letters.isEmpty then none
  else if rest.isEmpty then none
  else if rest.all isAsciiDigit then some (String.mk letters, digitsToNat rest)
  else none

def notColon (c : Char) : Bool := !(decide (c = ':'))

/-- Python's `ref.split(":")` destructured into exactly two parts. -/
def splitRef (s : String) : Option (String × String) :=
  let pre := s.data.takeWhile notColon
  let rest := s.data.dropWhile notColon
  match rest with
  | ':' :: tail =>
    if tail.contains ':' then none else some (String.mk pre, String.mk tail)
  | _ => none

/-- The state and bounds of a worksheet table (`TablePosition` in
`rwxlb.py`).  `first_col` is the mangled `__first_col` letter string and
`first_col_ind` the mangled `__first_col_ind` read through the
`first_col` property. -/
structure TablePosition where
  first_col : String
  header_row : Nat
  next_row : Nat
  first_col_ind : Nat
  last_col : String
  initial_last_row : Nat
deriving DecidableEq, Repr

/-- `TablePosition.__init__(ref)`: parse the excel range reference
`"<top left cell coordinate>:<bottom right cell coordinate>"`; the
cursor `next_row` starts at `header_row + 1`.  Parse failures (which
raise in openpyxl / Python unpacking) are `none`. -/
def TablePosition.init? (ref : String) : Option TablePosition :=
  match splitRef ref with
  | none => none
  | some (start, e) =>
    match coordinate_from_string start, coordinate_from_string e with
    | some (fc, hr), some (lc, ilr) =>
      some { first_col := fc, header_row := hr, next_row := hr + 1,
             first_col_ind := column_index_from_string fc,
             last_col := lc, initial_last_row := ilr }
    | _, _ => none

/-- `TablePosition.get_ref()`: the last row is `next_row - 1`, floored at
`header_row + 1` so that the table always keeps at least one data row. -/
def TablePosition.get_ref (p : TablePosition) : String :=
  let last_row :=
    if p.next_row - 1 ≥ p.header_row + 1 then p.next_row - 1 else p.header_row + 1
  p.first_col ++ natToDecStr p.header_row ++ ":" ++ p.last_col ++ natToDecStr last_row

/-- Advancing the cursor by `n` rows (`pos.next_row += 1`, `n` times). -/
def TablePosition.advance (p : TablePosition) (n : Nat) : TablePosition :=
  { p with next_row := p.next_row + n }

/-!
Round-trip lemmas: parsing a range string that `get_ref` produced
recovers the column letters and row numbers.
-/

theorem takeWhile_all_append {p : Char → Bool} {l₁ : List Char} {x : Char}
    {l₂ : List Char} (h1 : ∀ c ∈ l₁, p c = true) (h2 : p x = false) :
    (l₁ ++ x :: l₂).takeWhile p = l₁ := by
  induction l₁ with
  | nil => simp [List.takeWhile, h2]
  | cons a t ih =>
    have ha : p a = true := h1 a (by simp)
    rw [List.cons_append, List.takeWhile_cons_of_pos ha,
      ih (fun c hc => h1 c (by simp [hc]))]

theorem dropWhile_all_append {p : Char → Bool} {l₁ : List Char} {x : Char}
    {l₂ : List Char} (h1 : ∀ c ∈ l₁, p c = true) (h2 : p x = false) :
    (l₁ ++ x :: l₂).dropWhile p = x :: l₂ := by
  induction l₁ with
  | nil => simp [List.dropWhile, h2]
  | cons a t ih =>
    have ha : p a = true := h1 a (by simp)
    rw [List.cons_append, List.dropWhile_cons_of_pos ha]
    exact ih (fun c hc => h1 c (by simp [hc]))

theorem contains_eq_false_of_not_mem {l : List Char} {a : Char} (h : a ∉ l) :
    l.contains a = false := by
  simpa using h

theorem isAsciiDigit_ne_colon {c : Char} (h : isAsciiDigit c = true) : c ≠ ':' := by
  simp only [isAsciiDigit, Bool.and_eq_true, decide_eq_true_eq] at h
  intro hc
  subst hc
  simp at h

theorem isAsciiAlpha_ne_colon {c : Char} (h : isAsciiAlpha c = true) : c ≠ ':' := by
  simp only [isAsciiAlpha, Bool.or_eq_true, Bool.and_eq_true, decide_eq_true_eq] at h
  intro hc
  subst hc
  simp at h

theorem isAsciiDigit_not_alpha {c : Char} (h : isAsciiDigit c = true) :
    isAsciiAlpha c = false := by
  simp only [isAsciiDigit, Bool.and_eq_true, decide_eq_true_eq] at h
  simp only [isAsciiAlpha, Bool.or_eq_false_iff, Bool.and_eq_false_iff,
    decide_eq_false_iff_not]
  omega

/-- A string is a valid column-letter string when it is a nonempty run
of ASCII letters. -/
def ColStr (s : String) : Prop :=
  s.data ≠ [] ∧ ∀ c ∈ s.data, isAsciiAlpha c = true

instance (s : String) : Decidable (ColStr s) := by unfold ColStr; infer_instance

theorem coordinate_roundtrip {fc : String} (hfc : ColStr fc) (a : Nat) :
    coordinate_from_string (String.mk (fc.data ++ decDigits a)) = some (fc, a) := by
  obtain ⟨hne, hall⟩ := hfc
  obtain ⟨d, ds, hd⟩ : ∃ d ds, decDigits a = d :: ds := by
    cases h : decDigits a with
    | nil => exact absurd h (decDigits_ne_nil a)
    | cons d ds => exact ⟨d, ds, rfl⟩
  have hdigs := decDigits_all_digits a
  rw [hd] at hdigs
  have hdnotalpha : isAsciiAlpha d = false :=
    isAsciiDigit_not_alpha (hdigs d (by simp))
  unfold coordinate_from_string
  rw [hd]
  simp only [takeWhile_all_append hall hdnotalpha,
    dropWhile_all_append hall hdnotalpha]
  have h1 : fc.data.isEmpty = false := by
    cases h : fc.data with
    | nil => exact absurd h hne
    | cons x xs => rfl
  have h3 : (d :: ds).all isAsciiDigit = true := by
    simp only [List.all_eq_true]
    exact hdigs
  simp only [h1, h3, List.isEmpty_cons, Bool.false_eq_true, if_false, if_true]
  rw [← hd, digitsToNat_decDigits]

theorem splitRef_roundtrip {l₁ l₂ : List Char}
    (h1 : ∀ c ∈ l₁, c ≠ ':') (h2 : ∀ c ∈ l₂, c ≠ ':') :
    splitRef (String.mk (l₁ ++ ':' :: l₂)) = some (String.mk l₁, String.mk l₂) := by
  have h1' : ∀ c ∈ l₁, notColon c = true := by
    intro c hc
    simp only [notColon, Bool.not_eq_true', decide_eq_false_iff_not]
    exact h1 c hc
  have hcolon : notColon ':' = false := by simp [notColon]
  have hcont : l₂.contains ':' = false :=
    contains_eq_false_of_not_mem (fun hmem => h2 ':' hmem rfl)
  unfold splitRef
  simp only [takeWhile_all_append h1' hcolon, dropWhile_all_append h1' hcolon]
  simp only [hcont, Bool.false_eq_true, if_false]

/-- Full parse/print round trip for `TablePosition`: the reference
string assembled by `get_ref` from valid column letters parses back to
the coordinates it was built from. -/
theorem init?_of_format {fc lc : String} (hfc : ColStr fc) (hlc : ColStr lc)
    (a b : Nat) :
    TablePosition.init? (fc ++ natToDecStr a ++ ":" ++ lc ++ natToDecStr b) =
      some { first_col := fc, header_row := a, next_row := a + 1,
             first_col_ind := column_index_from_string fc,
             last_col := lc, initial_last_row := b } := by
  have hl₁ : ∀ c ∈ fc.data ++ decDigits a, c ≠ ':' := by
    intro c hc
    rcases List.mem_append.mp hc with hc | hc
    · exact isAsciiAlpha_ne_colon (hfc.2 c hc)
    · exact isAsciiDigit_ne_colon (decDigits_all_digits a c hc)
  have hl₂ : ∀ c ∈ lc.data ++ decDigits b, c ≠ ':' := by
    intro c hc
    rcases List.mem_append.mp hc with hc | hc
    · exact isAsciiAlpha_ne_colon (hlc.2 c hc)
    · exact isAsciiDigit_ne_colon (decDigits_all_digits b c hc)
  have hdata : (fc ++ natToDecStr a ++ ":" ++ lc ++ natToDecStr b).data =
      (fc.data ++ decDigits a) ++ ':' :: (lc.data ++ decDigits b) := by
    simp [String.data_append, natToDecStr]
  have hs : (fc ++ natToDecStr a ++ ":" ++ lc ++ natToDecStr b) =
      String.mk ((fc.data ++ decDigits a) ++ ':' :: (lc.data ++ decDigits b)) :=
    congrArg String.mk hdata
  unfold TablePosition.init?
  rw [hs, splitRef_roundtrip hl₁ hl₂]
  dsimp only
  rw [coordinate_roundtrip hfc a, coordinate_roundtrip hlc b]

/-- Parsing a reference yields valid column-letter strings. -/
theorem init?_colStr {ref : String} {p : TablePosition}
    (h : TablePosition.init? ref = some p) :
    ColStr p.first_col ∧ ColStr p.last_col := by
  unfold TablePosition.init? at h
  cases hsp : splitRef ref with
  | none => rw [hsp] at h; exact absurd h (by simp)
  | some se =>
    obtain ⟨s, e⟩ := se
    rw [hsp] at h
    dsimp only at h
    have hget : ∀ {s' fc' : String} {hr' : Nat},
        coordinate_from_string s' = some (fc', hr') → ColStr fc' := by
      intro s' fc' hr' hcs
      unfold coordinate_from_string at hcs
      by_cases he : (s'.data.takeWhile isAsciiAlpha).isEmpty
      · simp [he] at hcs
      · by_cases he2 : (s'.data.dropWhile isAsciiAlpha).isEmpty
        · simp [he, he2] at hcs
        · by_cases he3 : (s'.data.dropWhile isAsciiAlpha).all isAsciiDigit
          · simp only [he, he2, he3, Bool.false_eq_true, if_false, if_true,
              Option.some_inj] at hcs
            injection hcs with hA hB
            constructor
            · rw [← hA]
              simp only [ne_eq]
              intro hnil
              rw [hnil] at he
              exact he rfl
            · rw [← hA]
              intro c hc
              exact List.mem_takeWhile_imp hc
          · simp [he, he2, he3] at hcs
    cases hc1 : coordinate_from_string s with
    | none => rw [hc1] at h; exact absurd h (by simp)
    | some fe1 =>
      obtain ⟨fc, hr⟩ := fe1
      cases hc2 : coordinate_from_string e with
      | none => rw [hc1, hc2] at h; exact absurd h (by simp)
      | some fe2 =>
        obtain ⟨lc, ilr⟩ := fe2
        rw [hc1, hc2] at h
        dsimp only at h
        simp only [Option.some_inj] at h
        rw [← h]
        exact ⟨hget hc1, hget hc2⟩

theorem colLetterAux_alpha (fuel n : Nat) :
    ∀ c ∈ (colLetterAux fuel n).data, isAsciiAlpha c = true := by
  induction fuel generalizing n with
  | zero => intro c hc; simp [colLetterAux] at hc
  | succ f ih =>
    intro c hc
    unfold colLetterAux at hc
    by_cases h : n = 0
    · simp [h] at hc
    · simp only [h, if_false, String.data_append] at hc
      rcases List.mem_append.mp hc with hc | hc
      · exact ih _ c hc
      · have hr : (n - 1) % 26 < 26 := Nat.mod_lt _ (by omega)
        simp only [List.mem_singleton] at hc
        subst hc
        have : (Char.ofNat (65 + (n - 1) % 26)).toNat = 65 + (n - 1) % 26 := by
          set r := (n - 1) % 26 with hrdef
          interval_cases r <;> decide
        simp only [isAsciiAlpha, this]
        simp
        omega

theorem get_column_letter_colStr {n : Nat} (h : 1 ≤ n) :
    ColStr (get_column_letter n) := by
  constructor
  · unfold get_column_letter
    cases n with
    | zero => omega
    | succ m =>
      unfold colLetterAux
      simp only [Nat.succ_ne_zero, if_false]
      intro hnil
      simp only [Nat.add_sub_cancel] at hnil
      have : (colLetterAux m (m / 26) ++
          String.mk [Char.ofNat (65 + m % 26)]).data =
          (colLetterAux m (m / 26)).data ++ [Char.ofNat (65 + m % 26)] := by
        simp [String.data_append]
      rw [this] at hnil
      exact List.append_ne_nil_of_right_ne_nil _ (by simp) hnil
  · exact colLetterAux_alpha n n

/-!
The workbook model.

An openpyxl workbook is embedded by the parts of its state that
`rwxlb.py` reads and writes:

* a `MonthTable` is a worksheet table holding transaction rows: its
  `ref` string (`tab.ref`) plus the contents of the cell grid in the
  table's column band, starting at the row just below the table's header
  row.  `rows[i]` holds the three cells (Date, Description, Amount) of
  physical row `header_row + 1 + i`; a missing entry is an empty cell.
  Writing a complete 3-cell row at physical row `r` is `writeRowAt` on
  index `r - (header_row + 1)`; rows are written densely from the
  header down, so an index never exceeds the current length.
* a `Sheet` is a year worksheet: its 12 month tables keyed by table
  name (`ws.tables`), plus the summary table's ref (its cells hold
  formula text, which the merge engine never reads).
* a `Workbook` is the ordered list of sheets keyed by sheet name
  (`wb.sheetnames` order; `create_sheet(name, 0)` prepends).
-/

/-- A worksheet month table: its range reference and the grid rows of
its column band below the header. -/
structure MonthTable where
  ref : String
  rows : List Txn
deriving DecidableEq, Repr

/-- A year worksheet: month tables keyed by table name, plus the
summary table's range reference. -/
structure Sheet where
  tables : List (String × MonthTable)
  summaryRef : String
deriving DecidableEq, Repr

/-- A workbook: sheets keyed by name, in workbook order. -/
structure Workbook where
  sheets : List (String × Sheet)
deriving DecidableEq, Repr

/-- Keyed lookup in an association list (Python `dict[k]`, first match). -/
def alistGet {α : Type} (k : String) : List (String × α) → Option α
  | [] => none
  | (k', v) :: t => if k' = k then some v else alistGet k t

/-- Keyed update of an existing entry (Python `dict[k] = v` for a
present key; absent keys are untouched, which never happens on the
code's paths because every store is preceded by a successful lookup). -/
def alistSet {α : Type} (k : String) (v : α) : List (String × α) → List (String × α)
  | [] => []
  | (k', v') :: t => if k' = k then (k', v) :: t else (k', v') :: alistSet k v t

theorem alistGet_set_self {α : Type} {k : String} {v : α} {l : List (String × α)}
    (h : (alistGet k l).isSome) : alistGet k (alistSet k v l) = some v := by
  induction l with
  | nil => simp [alistGet] at h
  | cons p t ih =>
    obtain ⟨k', v'⟩ := p
    by_cases hk : k' = k
    · simp [alistGet, alistSet, hk]
    · simp only [alistGet, alistSet, hk, if_false] at h ⊢
      exact ih h

theorem alistGet_set_other {α : Type} {k k' : String} {v : α} {l : List (String × α)}
    (h : k' ≠ k) : alistGet k' (alistSet k v l) = alistGet k' l := by
  induction l with
  | nil => rfl
  | cons p t ih =>
    obtain ⟨k'', v''⟩ := p
    by_cases hk : k'' = k
    · subst hk
      have hne : ¬ (k'' = k') := fun hx => h hx.symm
      simp [alistSet, alistGet, hne]
    · simp only [alistSet, hk, if_false, alistGet]
      by_cases hk2 : k'' = k'
      · simp [hk2]
      · simp only [hk2, if_false]
        exact ih

theorem alistGet_set_isSome {α : Type} {k k' : String} {v : α} {l : List (String × α)} :
    (alistGet k' (alistSet k v l)).isSome = (alistGet k' l).isSome := by
  by_cases hk : k' = k
  · subst hk
    cases h : alistGet k' l with
    | none =>
      induction l with
      | nil => simp [alistSet, alistGet]
      | cons p t ih =>
        obtain ⟨k'', v''⟩ := p
        by_cases hx : k'' = k'
        · simp [alistGet, hx] at h
        · simp only [alistGet, alistSet, hx, if_false] at h ⊢
          exact ih h
    | some w =>
      rw [alistGet_set_self (by simp [h])]
      simp [h]
  · rw [alistGet_set_other hk]

/-!
Sheet construction (`create_year_sheet` and its helpers in `rwxlb.py`).
-/

/-- `calendar.month_name[1:]`. -/
def MONTH_NAME_0_IND : List String :=
  ["January", "February", "March", "April", "May", "June", "July",
   "August", "September", "October", "November", "December"]

/-- `calendar.month_name[m]` for `1 ≤ m ≤ 12`. -/
def month_name (m : Nat) : String := MONTH_NAME_0_IND.getD (m - 1) ""

/-- `_get_month_table_name`: `f"_{month}{year}"`. -/
def month_table_name (month year : String) : String := "_" ++ month ++ year

/-- `_get_summary_table_name`: `f"_Summary{year}"`. -/
def summary_table_name (year : String) : String := "_Summary" ++ year

def MONTH_TABLES_ROW : Nat := 16

def MONTH_TABLES_COL : Nat := 6

/-- The initial reference `_add_table` gives a month table: one header
row (`r_start + 1`) and one empty data row (`r_start + 2`), spanning the
three month columns. -/
def monthTableInitRef (c_start : Nat) : String :=
  get_column_letter c_start ++ natToDecStr (MONTH_TABLES_ROW + 1) ++ ":" ++
    get_column_letter (c_start + 2) ++ natToDecStr (MONTH_TABLES_ROW + 2)

/-- The initial reference `_add_table` gives the summary table
(`c_start = 1`, `r_start = 1`, four columns `A`..`D`). -/
def summaryInitRef : String :=
  get_column_letter 1 ++ natToDecStr 2 ++ ":" ++
    get_column_letter 4 ++ natToDecStr 3

/-- The summary table's reference after `create_year_sheet` writes the
12 month rows and reassigns `summ_tab.ref = summ_tab_pos.get_ref()`. -/
def newSummaryRef : String :=
  match TablePosition.init? summaryInitRef with
  | some p => (p.advance 12).get_ref
  | none => summaryInitRef

/-- The sheet `create_year_sheet` builds: 12 month tables (at column
bands of width `len(MONTH_COLUMNS) + 1 = 4` starting at
`MONTH_TABLES_COL`), each with an empty data region, plus the summary
table.  Cells outside the month-table data regions (titles, headers,
summary formulas) are never read back by the merge engine and are not
part of the model. -/
def newYearSheet (year : Nat) : Sheet :=
  { tables := (List.range 12).map fun i =>
      (month_table_name (month_name (i + 1)) (natToDecStr year),
       { ref := monthTableInitRef (MONTH_TABLES_COL + (3 + 1) * i), rows := [] }),
    summaryRef := newSummaryRef }

/-- `create_year_sheet(wb, year)`: raises if the year sheet exists,
otherwise inserts the new sheet at index 0. -/
def create_year_sheet (wb : Workbook) (year : Nat) : Except String Workbook :=
  if (wb.sheets.map Prod.fst).contains (natToDecStr year) then
    .error "Year sheet already exists"
  else
    .ok { sheets := (natToDecStr year, newYearSheet year) :: wb.sheets }

/-!
The merge engine (`update_xlbudget` in `rwxlb.py`), split into the
phases marked by the source's comments: create year sheets, initialize
table positions, absorb existing transactions into the dataframe, drop
duplicates, re-sort, write the dataframe back, update table refs.
Python exceptions (KeyError on a missing sheet/table, ValueError on an
unparsable reference, AttributeError on an incomplete row) are
`.error`; the code raises them before the workbook is saved, so the
error message and the exact point of interruption are not modelled.
-/

/-- Minimum of a datetime column (`agg("min")`), folded over the rows. -/
def dateMinFold (d : Date) (l : List Date) : Date :=
  l.foldl (fun a b => if dateLt b a then b else a) d

/-- Maximum of a datetime column (`agg("max")`), folded over the rows. -/
def dateMaxFold (d : Date) (l : List Date) : Date :=
  l.foldl (fun a b => if dateLt a b then b else a) d

/-- `oldest_date` of a nonempty dataframe (the `[]` case is unused:
`update_xlbudget` fails on an empty dataframe before using it). -/
def oldestDate : List Txn → Date
  | [] => ⟨0, 0, 0⟩
  | t :: r => dateMinFold t.date (r.map (fun x => x.date))

/-- `newest_date` of a nonempty dataframe. -/
def newestDate : List Txn → Date
  | [] => ⟨0, 0, 0⟩
  | t :: r => dateMaxFold t.date (r.map (fun x => x.date))

/-- `range(oldest_date.year, newest_date.year + 1)`. -/
def spanYears (o n : Date) : List Nat := List.range' o.year (n.year + 1 - o.year)

/-- `range(start_month, end_month + 1)` for one year of the span. -/
def spanMonths (o n : Date) (y : Nat) : List Nat :=
  let s := if y = o.year then o.month else 1
  let e := if y = n.year then n.month else 12
  List.range' s (e + 1 - s)

/-- The table-positions dictionary: sheet name to (table name to
position), in insertion order (years ascending, months ascending). -/
abbrev TPos := List (String × List (String × TablePosition))

/-- Phase "create year sheets as needed". -/
def createYearSheets : List Nat → Workbook → Except String Workbook
  | [], wb => .ok wb
  | y :: ys, wb =>
    if (wb.sheets.map Prod.fst).contains (natToDecStr y) then
      createYearSheets ys wb
    else
      match create_year_sheet wb y with
      | .error e => .error e
      | .ok wb' => createYearSheets ys wb'

/-- Phase "initialize table positions", inner month loop. -/
def initMonthPositions (sh : Sheet) (sname : String) :
    List Nat → Except String (List (String × TablePosition))
  | [] => .ok []
  | m :: ms =>
    let tname := month_table_name (month_name m) sname
    match alistGet tname sh.tables with
    | none => .error "KeyError: missing month table"
    | some tab =>
      match TablePosition.init? tab.ref with
      | none => .error "ValueError: invalid table reference"
      | some pos =>
        match initMonthPositions sh sname ms with
        | .error e => .error e
        | .ok rest => .ok ((tname, pos) :: rest)

/-- Phase "initialize table positions", outer year loop. -/
def initPositions (wb : Workbook) (o n : Date) :
    List Nat → Except String TPos
  | [] => .ok []
  | y :: ys =>
    let sname := natToDecStr y
    match alistGet sname wb.sheets with
    | none => .error "KeyError: missing year sheet"
    | some sh =>
      match initMonthPositions sh sname (spanMonths o n y) with
      | .error e => .error e
      | .ok entries =>
        match initPositions wb o n ys with
        | .error e => .error e
        | .ok rest => .ok ((sname, entries) :: rest)

/-- Reading the three cells of physical row `r` of a table whose header
row is `hr`: `ws.cell(row=r, column=first_col + i)` for the three month
columns.  `none` is an empty (or partly empty) row. -/
def readCell (tab : MonthTable) (hr r : Nat) : Option Txn :=
  tab.rows.get? (r - (hr + 1))

/-- Reading rows `r`, `r+1`, ... (`k` of them).  An incomplete row would
make the later write loop raise (`row.Date.year` on a non-date); the
update fails either way, so the model fails here. -/
def readRange (tab : MonthTable) (hr : Nat) : Nat → Nat → Except String (List Txn)
  | _, 0 => .ok []
  | r, k + 1 =>
    match readCell tab hr r with
    | none => .error "AttributeError: incomplete row"
    | some t =>
      match readRange tab hr (r + 1) k with
      | .error e => .error e
      | .ok rest => .ok (t :: rest)

/-- Phase "update df with transactions in wb", one table: if the first
data cell is populated, append rows `next_row ..= initial_last_row`. -/
def absorbTable (tab : MonthTable) (pos : TablePosition) : Except String (List Txn) :=
  if (readCell tab pos.header_row pos.next_row).isSome then
    readRange tab pos.header_row pos.next_row (pos.initial_last_row + 1 - pos.next_row)
  else .ok []

/-- Absorption across one sheet's tables. -/
def absorbSheet (sh : Sheet) : List (String × TablePosition) → Except String (List Txn)
  | [] => .ok []
  | (tname, pos) :: rest =>
    match alistGet tname sh.tables with
    | none => .error "KeyError: missing month table"
    | some tab =>
      match absorbTable tab pos with
      | .error e => .error e
      | .ok ts =>
        match absorbSheet sh rest with
        | .error e => .error e
        | .ok ts' => .ok (ts ++ ts')

/-- Absorption across all sheets of the positions dictionary. -/
def absorbAll (wb : Workbook) : TPos → Except String (List Txn)
  | [] => .ok []
  | (sname, entries) :: rest =>
    match alistGet sname wb.sheets with
    | none => .error "KeyError: missing year sheet"
    | some sh =>
      match absorbSheet sh entries with
      | .error e => .error e
      | .ok ts =>
        match absorbAll wb rest with
        | .error e => .error e
        | .ok ts' => .ok (ts ++ ts')

/-- `df_drop_duplicates`: `df[~df.duplicated()]` keeps the first
occurrence of every row value and drops the later exact duplicates
(the source's no-duplicates early return produces the same dataframe). -/
def dropDupsAux (seen : List Txn) : List Txn → List Txn
  | [] => []
  | t :: rest =>
    if t ∈ seen then dropDupsAux seen rest
    else t :: dropDupsAux (t :: seen) rest

/-- `df_drop_duplicates` on the dataframe rows. -/
def df_drop_duplicates (df : List Txn) : List Txn := dropDupsAux [] df

/-- Writing one row's three cells at list index `i` of a table's data
region (`i = next_row - (header_row + 1)`); rows are written densely
downward from the header, so `i` never exceeds the region's length. -/
def writeRowAt (rows : List Txn) (i : Nat) (t : Txn) : List Txn :=
  if i < rows.length then rows.set i t else rows ++ [t]

/-- The sheet name a transaction is routed to: `str(row.Date.year)`. -/
def txnSheet (t : Txn) : String := natToDecStr t.date.year

/-- The table name a transaction is routed to. -/
def txnTable (t : Txn) : String :=
  month_table_name (month_name t.date.month) (txnSheet t)

/-- Phase "write dataframe to wb", one row: look up the position and the
worksheet, write the three cells at the cursor, advance the cursor. -/
def writeOne (wb : Workbook) (tpos : TPos) (t : Txn) :
    Except String (Workbook × TPos) :=
  let sname := txnSheet t
  let tname := txnTable t
  match alistGet sname tpos with
  | none => .error "KeyError: sheet not in table positions"
  | some entries =>
    match alistGet tname entries with
    | none => .error "KeyError: table not in table positions"
    | some pos =>
      match alistGet sname wb.sheets with
      | none => .error "KeyError: missing year sheet"
      | some sh =>
        match alistGet tname sh.tables with
        | none => .error "KeyError: missing month table"
        | some tab =>
          let tab' := { tab with
            rows := writeRowAt tab.rows (pos.next_row - (pos.header_row + 1)) t }
          let sh' := { sh with tables := alistSet tname tab' sh.tables }
          let wb' : Workbook := { sheets := alistSet sname sh' wb.sheets }
          let tpos' :=
            alistSet sname (alistSet tname (pos.advance 1) entries) tpos
          .ok (wb', tpos')

/-- Phase "write dataframe to wb", folded over the sorted rows. -/
def writeAll : List Txn → Workbook → TPos → Except String (Workbook × TPos)
  | [], wb, tpos => .ok (wb, tpos)
  | t :: rest, wb, tpos =>
    match writeOne wb tpos t with
    | .error e => .error e
    | .ok (wb', tpos') => writeAll rest wb' tpos'

/-- Phase "update table refs", one table: write the recomputed reference
back if it changed. -/
def finalizeOne (wb : Workbook) (sname tname : String) (pos : TablePosition) :
    Except String Workbook :=
  match alistGet sname wb.sheets with
  | none => .error "KeyError: missing year sheet"
  | some sh =>
    match alistGet tname sh.tables with
    | none => .error "KeyError: missing month table"
    | some tab =>
      let tab' := if pos.get_ref ≠ tab.ref then { tab with ref := pos.get_ref } else tab
      .ok { sheets := alistSet sname { sh with tables := alistSet tname tab' sh.tables } wb.sheets }

/-- Phase "update table refs" across one sheet. -/
def finalizeSheet (sname : String) :
    List (String × TablePosition) → Workbook → Except String Workbook
  | [], wb => .ok wb
  | (tname, pos) :: rest, wb =>
    match finalizeOne wb sname tname pos with
    | .error e => .error e
    | .ok wb' => finalizeSheet sname rest wb'

/-- Phase "update table refs" across all sheets. -/
def finalizeAll : TPos → Workbook → Except String Workbook
  | [], wb => .ok wb
  | (sname, entries) :: rest, wb =>
    match finalizeSheet sname entries wb with
    | .error e => .error e
    | .ok wb' => finalizeAll rest wb'

/-- `update_xlbudget(wb, df)`.  An empty dataframe makes the source
raise on `oldest_date.year` (`min` of nothing); the phases follow the
source's section comments in order. -/
def update_xlbudget (wb : Workbook) (df : List Txn) : Except String Workbook :=
  match df with
  | [] => .error "AttributeError: empty dataframe has no min/max date"
  | _ :: _ =>
    let o := oldestDate df
    let n := newestDate df
    match createYearSheets (spanYears o n) wb with
    | .error e => .error e
    | .ok wb₁ =>
      match initPositions wb₁ o n (spanYears o n) with
      | .error e => .error e
      | .ok tpos =>
        match absorbAll wb₁ tpos with
        | .error e => .error e
        | .ok absorbed =>
          let merged := df_drop_duplicates (df ++ absorbed)
          let sorted := List.insertionSort TxnLE merged
          match writeAll sorted wb₁ tpos with
          | .error e => .error e
          | .ok (wb₂, tpos₂) =>
            finalizeAll tpos₂ wb₂

/-- Lookup of a month table by `(year, month)`, through the sheet and
table names the code uses. -/
def monthTable? (wb : Workbook) (y m : Nat) : Option MonthTable :=
  match alistGet (natToDecStr y) wb.sheets with
  | none => none
  | some sh => alistGet (month_table_name (month_name m) (natToDecStr y)) sh.tables

/-- The rows a table stores, per its range reference: the data region
spans rows `header_row + 1 ..= initial_last_row` of the grid.  Cells
outside the reference are not part of the table. -/
def storedRows (tab : MonthTable) : List Txn :=
  match TablePosition.init? tab.ref with
  | none => []
  | some p => tab.rows.take (p.initial_last_row - p.header_row)

/-- All rows stored in the month tables within the span of a record
set, in span order: the `E` of the merge-completeness property. -/
def collectStored (wb : Workbook) (o n : Date) : List Txn :=
  (spanYears o n).flatMap fun y =>
    (spanMonths o n y).flatMap fun m =>
      match monthTable? wb y m with
      | none => []
      | some tab => storedRows tab

instance {ε α : Type} [DecidableEq ε] [DecidableEq α] : DecidableEq (Except ε α) :=
  fun a b =>
    match a, b with
    | .error e, .error e' => decidable_of_iff (e = e') (by simp)
    | .ok x, .ok y => decidable_of_iff (x = y) (by simp)
    | .error _, .ok _ => isFalse (by simp)
    | .ok _, .error _ => isFalse (by simp)

/-!
Properties of deduplication.
-/

theorem mem_dropDupsAux {seen l : List Txn} {a : Txn} :
    a ∈ dropDupsAux seen l ↔ a ∈ l ∧ a ∉ seen := by
  induction l generalizing seen with
  | nil => simp [dropDupsAux]
  | cons t rest ih =>
    unfold dropDupsAux
    by_cases h : t ∈ seen
    · rw [if_pos h, ih]
      simp only [List.mem_cons]
      constructor
      · rintro ⟨h1, h2⟩
        exact ⟨Or.inr h1, h2⟩
      · rintro ⟨h1 | h1, h2⟩
        · exact absurd (h1 ▸ h) h2
        · exact ⟨h1, h2⟩
    · rw [if_neg h]
      simp only [List.mem_cons, ih, List.mem_cons]
      constructor
      · rintro (rfl | ⟨h1, h2⟩)
        · exact ⟨Or.inl rfl, h⟩
        · push_neg at h2
          exact ⟨Or.inr h1, h2.2⟩
      · rintro ⟨h1 | h1, h2⟩
        · exact Or.inl h1
        · by_cases hat : a = t
          · exact Or.inl hat
          · refine Or.inr ⟨h1, fun hx => ?_⟩
            rcases hx with hx | hx
            · exact hat hx
            · exact h2 hx

theorem nodup_dropDupsAux (seen l : List Txn) :
    (dropDupsAux seen l).Nodup := by
  induction l generalizing seen with
  | nil => simp [dropDupsAux]
  | cons t rest ih =>
    by_cases h : t ∈ seen
    · simpa [dropDupsAux, h] using ih seen
    · simp only [dropDupsAux, h, if_false, List.nodup_cons]
      refine ⟨fun hmem => ?_, ih (t :: seen)⟩
      rw [mem_dropDupsAux] at hmem
      exact hmem.2 (by simp)

theorem mem_df_drop_duplicates {l : List Txn} {a : Txn} :
    a ∈ df_drop_duplicates l ↔ a ∈ l := by
  unfold df_drop_duplicates
  rw [mem_dropDupsAux]
  simp

theorem nodup_df_drop_duplicates (l : List Txn) :
    (df_drop_duplicates l).Nodup := nodup_dropDupsAux [] l

theorem count_df_drop_duplicates {l : List Txn} {a : Txn} (h : a ∈ l) :
    (df_drop_duplicates l).count a = 1 := by
  have hmem : a ∈ df_drop_duplicates l := mem_df_drop_duplicates.mpr h
  have hnd := nodup_df_drop_duplicates l
  have h1 : (df_drop_duplicates l).count a ≤ 1 :=
    List.nodup_iff_count_le_one.mp hnd a
  have h2 : 0 < (df_drop_duplicates l).count a := List.count_pos_iff.mpr hmem
  omega

/-!
Properties of the sorted rewrite list.
-/

/-- The sorted, deduplicated union that `update_xlbudget` writes back. -/
def mergedSorted (df absorbed : List Txn) : List Txn :=
  List.insertionSort TxnLE (df_drop_duplicates (df ++ absorbed))

theorem mergedSorted_perm (df absorbed : List Txn) :
    (mergedSorted df absorbed).Perm (df_drop_duplicates (df ++ absorbed)) :=
  List.perm_insertionSort TxnLE _

theorem mergedSorted_nodup (df absorbed : List Txn) :
    (mergedSorted df absorbed).Nodup :=
  (mergedSorted_perm df absorbed).nodup_iff.mpr (nodup_df_drop_duplicates _)

theorem mergedSorted_sorted (df absorbed : List Txn) :
    List.Sorted TxnLE (mergedSorted df absorbed) :=
  List.sorted_insertionSort TxnLE _

theorem mem_mergedSorted {df absorbed : List Txn} {a : Txn} :
    a ∈ mergedSorted df absorbed ↔ a ∈ df ∨ a ∈ absorbed := by
  rw [(mergedSorted_perm df absorbed).mem_iff, mem_df_drop_duplicates,
    List.mem_append]

/-- Two sorted merges over unions with the same members are the same
list: sortedness plus antisymmetry pins the list down. -/
theorem mergedSorted_eq_of_same_mem {df a₁ a₂ : List Txn}
    (h : ∀ x, x ∈ df ∨ x ∈ a₁ ↔ x ∈ df ∨ x ∈ a₂) :
    mergedSorted df a₁ = mergedSorted df a₂ := by
  apply List.eq_of_perm_of_sorted _ (mergedSorted_sorted df a₁) (mergedSorted_sorted df a₂)
  rw [List.perm_ext_iff_of_nodup (mergedSorted_nodup df a₁) (mergedSorted_nodup df a₂)]
  intro x
  rw [mem_mergedSorted, mem_mergedSorted]
  exact h x

/-!
Sequential writes into a table's data region.
-/

/-- Writing a list of rows at consecutive indices starting at `i`. -/
def writeSeq (rows : List Txn) (i : Nat) : List Txn → List Txn
  | [] => rows
  | t :: ts => writeSeq (writeRowAt rows i t) (i + 1) ts

theorem writeRowAt_length {rows : List Txn} {i : Nat} {t : Txn} (h : i ≤ rows.length) :
    (writeRowAt rows i t).length = max rows.length (i + 1) := by
  unfold writeRowAt
  by_cases hi : i < rows.length
  · simp [hi]
    omega
  · simp [hi]
    omega

theorem writeSeq_spec {ws : List Txn} {rows : List Txn} {i : Nat}
    (h : i ≤ rows.length) :
    writeSeq rows i ws = rows.take i ++ ws ++ rows.drop (i + ws.length) := by
  induction ws generalizing rows i with
  | nil => simp [writeSeq, List.take_append_drop, h, List.take_of_length_le]
  | cons t ts ih =>
    unfold writeSeq
    have hlen : i + 1 ≤ (writeRowAt rows i t).length := by
      rw [writeRowAt_length h]
      omega
    rw [ih hlen]
    have hwr : writeRowAt rows i t = rows.take i ++ t :: rows.drop (i + 1) := by
      unfold writeRowAt
      by_cases hi : i < rows.length
      · simp only [hi, if_true]
        rw [List.set_eq_take_append_cons_drop]
        simp [hi]
      · have hieq : i = rows.length := by omega
        subst hieq
        simp
    rw [hwr]
    have hti : (rows.take i).length = i := by
      simp only [List.length_take]
      omega
    have h1 : (rows.take i ++ t :: rows.drop (i + 1)).take (i + 1) =
        rows.take i ++ [t] := by
      rw [List.take_append_eq_append_take, hti]
      rw [List.take_of_length_le (by rw [hti]; omega)]
      have hx : i + 1 - i = 1 := by omega
      rw [hx]
      rfl
    have h2 : (rows.take i ++ t :: rows.drop (i + 1)).drop (i + 1 + ts.length) =
        rows.drop (i + (t :: ts).length) := by
      rw [List.drop_append_eq_append_drop, hti]
      rw [List.drop_of_length_le (by rw [hti]; omega)]
      simp only [List.nil_append]
      have h3 : i + 1 + ts.length - i = ts.length + 1 := by omega
      rw [h3, List.drop_succ_cons, List.drop_drop]
      have h4 : i + 1 + ts.length = i + (t :: ts).length := by
        simp only [List.length_cons]
        omega
      rw [h4]
    rw [h1, h2]
    simp

/-!
Date order facts, and the position of each record's date inside the
span `range(oldest.year, newest.year + 1)` × month range.
-/

theorem dateLt_iff {a b : Date} : dateLt a b = true ↔
    (a.year < b.year ∨ (a.year = b.year ∧
      (a.month < b.month ∨ (a.month = b.month ∧ a.day < b.day)))) := by
  simp [dateLt]

theorem dateLe_iff {a b : Date} : dateLe a b = true ↔
    (a.year < b.year ∨ (a.year = b.year ∧
      (a.month < b.month ∨ (a.month = b.month ∧ a.day ≤ b.day)))) := by
  simp only [dateLe, Bool.not_eq_true']
  constructor
  · intro h
    have : ¬ (dateLt b a = true) := by simp [h]
    rw [dateLt_iff] at this
    omega
  · intro h
    cases hx : dateLt b a with
    | false => rfl
    | true =>
      rw [dateLt_iff] at hx
      omega

theorem dateLe_refl (a : Date) : dateLe a a = true := by
  rw [dateLe_iff]
  omega

theorem dateLe_trans {a b c : Date} (h1 : dateLe a b = true)
    (h2 : dateLe b c = true) : dateLe a c = true := by
  rw [dateLe_iff] at h1 h2 ⊢
  omega

theorem dateLe_of_le_of_lt {a b c : Date} (h1 : dateLe a b = true)
    (h2 : dateLt b c = true) : dateLe a c = true := by
  rw [dateLe_iff] at h1 ⊢
  rw [dateLt_iff] at h2
  omega

theorem dateLe_of_not_lt {a b : Date} (h : dateLt a b = false) :
    dateLe b a = true := by
  simp [dateLe, h]

theorem dateMinFold_le {d : Date} {l : List Date} :
    dateLe (dateMinFold d l) d = true ∧
      ∀ x ∈ l, dateLe (dateMinFold d l) x = true := by
  induction l generalizing d with
  | nil => exact ⟨dateLe_refl d, by simp⟩
  | cons b bs ih =>
    unfold dateMinFold
    simp only [List.foldl_cons]
    by_cases hbd : dateLt b d = true
    · simp only [hbd, if_true]
      obtain ⟨h1, h2⟩ := ih (d := b)
      refine ⟨dateLe_of_le_of_lt h1 hbd, ?_⟩
      intro x hx
      rcases List.mem_cons.mp hx with hx | hx
      · exact hx ▸ h1
      · exact h2 x hx
    · simp only [hbd, Bool.false_eq_true, if_false]
      obtain ⟨h1, h2⟩ := ih (d := d)
      refine ⟨h1, ?_⟩
      intro x hx
      rcases List.mem_cons.mp hx with hx | hx
      · subst hx
        exact dateLe_trans h1
          (dateLe_of_not_lt (by simpa using hbd))
      · exact h2 x hx

theorem dateMaxFold_ge {d : Date} {l : List Date} :
    dateLe d (dateMaxFold d l) = true ∧
      ∀ x ∈ l, dateLe x (dateMaxFold d l) = true := by
  induction l generalizing d with
  | nil => exact ⟨dateLe_refl d, by simp⟩
  | cons b bs ih =>
    unfold dateMaxFold
    simp only [List.foldl_cons]
    by_cases hbd : dateLt d b = true
    · simp only [hbd, if_true]
      obtain ⟨h1, h2⟩ := ih (d := b)
      refine ⟨?_, ?_⟩
      · exact dateLe_trans (dateLe_of_le_of_lt (dateLe_refl d) hbd) h1
      · intro x hx
        rcases List.mem_cons.mp hx with hx | hx
        · exact hx ▸ h1
        · exact h2 x hx
    · simp only [hbd, Bool.false_eq_true, if_false]
      obtain ⟨h1, h2⟩ := ih (d := d)
      refine ⟨h1, ?_⟩
      intro x hx
      rcases List.mem_cons.mp hx with hx | hx
      · subst hx
        exact dateLe_trans (dateLe_of_not_lt (by simpa using hbd)) h1
      · exact h2 x hx

theorem oldestDate_le {df : List Txn} {t : Txn} (ht : t ∈ df) :
    dateLe (oldestDate df) t.date = true := by
  cases df with
  | nil => simp at ht
  | cons h r =>
    unfold oldestDate
    rcases List.mem_cons.mp ht with hx | hx
    · exact hx ▸ dateMinFold_le.1
    · exact dateMinFold_le.2 t.date (List.mem_map.mpr ⟨t, hx, rfl⟩)

theorem le_newestDate {df : List Txn} {t : Txn} (ht : t ∈ df) :
    dateLe t.date (newestDate df) = true := by
  cases df with
  | nil => simp at ht
  | cons h r =>
    unfold newestDate
    rcases List.mem_cons.mp ht with hx | hx
    · exact hx ▸ dateMaxFold_ge.1
    · exact dateMaxFold_ge.2 t.date (List.mem_map.mpr ⟨t, hx, rfl⟩)

theorem oldest_le_newest {df : List Txn} (hne : df ≠ []) :
    dateLe (oldestDate df) (newestDate df) = true := by
  cases df with
  | nil => exact absurd rfl hne
  | cons h r =>
    exact dateLe_trans (oldestDate_le (List.mem_cons_self h r))
      (le_newestDate (List.mem_cons_self h r))

theorem mem_spanYears {o n : Date} {y : Nat} :
    y ∈ spanYears o n ↔ o.year ≤ y ∧ y < n.year + 1 := by
  unfold spanYears
  rw [List.mem_range']
  constructor
  · rintro ⟨i, hi, rfl⟩
    omega
  · intro ⟨h1, h2⟩
    exact ⟨y - o.year, by omega, by omega⟩

theorem mem_spanMonths {o n : Date} {y m : Nat} :
    m ∈ spanMonths o n y ↔
      (if y = o.year then o.month else 1) ≤ m ∧
        m < (if y = n.year then n.month else 12) + 1 := by
  unfold spanMonths
  rw [List.mem_range']
  constructor
  · rintro ⟨i, hi, rfl⟩
    omega
  · intro ⟨h1, h2⟩
    exact ⟨m - (if y = o.year then o.month else 1), by omega, by omega⟩

/-- Every record of a nonempty dataframe has its `(year, month)` inside
the span loops of `update_xlbudget`, provided its month is a calendar
month. -/
theorem txn_mem_span {df : List Txn} {t : Txn} (ht : t ∈ df)
    (hm : 1 ≤ t.date.month ∧ t.date.month ≤ 12) :
    t.date.year ∈ spanYears (oldestDate df) (newestDate df) ∧
      t.date.month ∈ spanMonths (oldestDate df) (newestDate df) t.date.year := by
  have h1 := oldestDate_le ht
  have h2 := le_newestDate ht
  rw [dateLe_iff] at h1 h2
  constructor
  · rw [mem_spanYears]
    omega
  · rw [mem_spanMonths]
    constructor
    · by_cases hy : t.date.year = (oldestDate df).year
      · rw [if_pos hy]
        omega
      · rw [if_neg hy]
        omega
    · by_cases hy : t.date.year = (newestDate df).year
      · rw [if_pos hy]
        omega
      · rw [if_neg hy]
        omega

/-!
Name and key injectivity: distinct `(year, month)` pairs in the span
always address distinct sheet/table name pairs.
-/

theorem month_name_inj {m₁ m₂ : Nat} (h₁ : 1 ≤ m₁ ∧ m₁ ≤ 12) (h₂ : 1 ≤ m₂ ∧ m₂ ≤ 12)
    (h : month_name m₁ = month_name m₂) : m₁ = m₂ := by
  have key : ∀ a ∈ List.range' 1 12, ∀ b ∈ List.range' 1 12,
      month_name a = month_name b → a = b := by decide
  have hma : m₁ ∈ List.range' 1 12 := by
    rw [List.mem_range']
    exact ⟨m₁ - 1, by omega, by omega⟩
  have hmb : m₂ ∈ List.range' 1 12 := by
    rw [List.mem_range']
    exact ⟨m₂ - 1, by omega, by omega⟩
  exact key m₁ hma m₂ hmb h

theorem month_table_name_inj_month {a b y : String}
    (h : month_table_name a y = month_table_name b y) : a = b := by
  unfold month_table_name at h
  have hd : ('_' :: (a.data ++ y.data)) = ('_' :: (b.data ++ y.data)) := by
    have h1 : ("_" ++ a ++ y).data = ("_" ++ b ++ y).data := by rw [h]
    simpa [String.data_append] using h1
  have hd2 : a.data ++ y.data = b.data ++ y.data := by
    injection hd
  have : a.data = b.data := List.append_cancel_right hd2
  cases a
  cases b
  simp only at this
  rw [this]

/-- The `(sheet name, table name)` routing key of a record. -/
def txnKey (t : Txn) : String × String := (txnSheet t, txnTable t)

/-- The routing key of a span pair `(y, m)`. -/
def spanKey (y m : Nat) : String × String :=
  (natToDecStr y, month_table_name (month_name m) (natToDecStr y))

theorem txnKey_eq_spanKey {t : Txn} {y m : Nat}
    (hm : 1 ≤ m ∧ m ≤ 12) (htm : 1 ≤ t.date.month ∧ t.date.month ≤ 12) :
    txnKey t = spanKey y m ↔ t.date.year = y ∧ t.date.month = m := by
  constructor
  · intro h
    simp only [txnKey, spanKey, txnSheet, txnTable] at h
    injection h with h1 h2
    have hy : t.date.year = y := natToDecStr_inj h1
    refine ⟨hy, ?_⟩
    rw [hy] at h2
    exact month_name_inj htm hm (month_table_name_inj_month h2)
  · rintro ⟨h1, h2⟩
    simp only [txnKey, spanKey, txnSheet, txnTable, h1, h2]

theorem spanKey_inj {y₁ m₁ y₂ m₂ : Nat}
    (h₁ : 1 ≤ m₁ ∧ m₁ ≤ 12) (h₂ : 1 ≤ m₂ ∧ m₂ ≤ 12)
    (h : spanKey y₁ m₁ = spanKey y₂ m₂) : y₁ = y₂ ∧ m₁ = m₂ := by
  unfold spanKey at h
  injection h with hy ht
  have hyy : y₁ = y₂ := natToDecStr_inj hy
  refine ⟨hyy, ?_⟩
  rw [hyy] at ht
  exact month_name_inj h₁ h₂ (month_table_name_inj_month ht)

/-!
Association list lookups from membership.
-/

theorem alistGet_of_mem_nodup {α : Type} {l : List (String × α)} {k : String} {v : α}
    (hnd : (l.map Prod.fst).Nodup) (hmem : (k, v) ∈ l) : alistGet k l = some v := by
  induction l with
  | nil => simp at hmem
  | cons p t ih =>
    obtain ⟨k', v'⟩ := p
    rcases List.mem_cons.mp hmem with h | h
    · have h1 : k = k' := congrArg Prod.fst h
      have h2 : v = v' := congrArg Prod.snd h
      simp [alistGet, h1.symm, h2.symm]
    · have hk : k' ≠ k := by
        intro hx
        subst hx
        have : k' ∈ t.map Prod.fst := List.mem_map.mpr ⟨(k', v), h, rfl⟩
        simp only [List.map_cons, List.nodup_cons] at hnd
        exact hnd.1 this
      simp only [alistGet, hk, if_false]
      simp only [List.map_cons, List.nodup_cons] at hnd
      exact ih hnd.2 h

/-!
A list is a permutation of the concatenation of its key-filtered
slices, one slice per key.
-/

theorem join_filter_perm {β : Type} [DecidableEq β] (key : Txn → β) :
    ∀ (ks : List β) (s : List Txn), ks.Nodup → (∀ t ∈ s, key t ∈ ks) →
      (ks.flatMap (fun k => s.filter (fun t => decide (key t = k)))).Perm s := by
  intro ks
  induction ks with
  | nil =>
    intro s _ hcov
    cases s with
    | nil => simp
    | cons a l => exact absurd (hcov a (by simp)) (by simp)
  | cons k ks ih =>
    intro s hnd hcov
    rw [List.flatMap_cons]
    have hndtail := (List.nodup_cons.mp hnd).2
    have hknotmem := (List.nodup_cons.mp hnd).1
    have hsplit := List.filter_append_perm (fun t => decide (key t = k)) s
    set s' := s.filter (fun t => !(decide (key t = k))) with hs'
    have hcov' : ∀ t ∈ s', key t ∈ ks := by
      intro t ht
      rw [hs', List.mem_filter] at ht
      have hmem := hcov t ht.1
      rcases List.mem_cons.mp hmem with h | h
      · exfalso
        have h2 := ht.2
        simp [h] at h2
      · exact h
    have hihs := ih s' hndtail hcov'
    have hflatEq :
        ∀ (l : List β), (∀ k' ∈ l, k' ≠ k) →
          l.flatMap (fun k' => s.filter (fun t => decide (key t = k'))) =
            l.flatMap (fun k' => s'.filter (fun t => decide (key t = k'))) := by
      intro l hl
      induction l with
      | nil => rfl
      | cons a as ihl =>
        rw [List.flatMap_cons, List.flatMap_cons,
          ihl (fun x hx => hl x (by simp [hx]))]
        have hfeq : s'.filter (fun t => decide (key t = a)) =
            s.filter (fun t => decide (key t = a)) := by
          rw [hs', List.filter_filter]
          apply List.filter_congr
          intro x _
          by_cases hx : key x = a
          · have hak : a ≠ k := hl a (by simp)
            have hxk : ¬ (key x = k) := by
              intro hxx
              exact hak (hx ▸ hxx)
            simp [hx, hxk, hak]
          · simp [hx]
        rw [hfeq]
    rw [hflatEq ks (fun x hx hxk => hknotmem (hxk ▸ hx))]
    exact (hihs.append_left _).trans hsplit

/-!
Views of the workbook and the positions dictionary by routing key, and
the characterization of the write phase: each table receives exactly
the records routed to it, in order, written sequentially from its
cursor.
-/

/-- The month table stored under a `(sheet name, table name)` key. -/
def viewTab (wb : Workbook) (sn tn : String) : Option MonthTable :=
  match alistGet sn wb.sheets with
  | none => none
  | some sh => alistGet tn sh.tables

/-- The position stored under a `(sheet name, table name)` key. -/
def viewPos (tpos : TPos) (sn tn : String) : Option TablePosition :=
  match alistGet sn tpos with
  | none => none
  | some entries => alistGet tn entries

theorem advance_advance (p : TablePosition) (a b : Nat) :
    (p.advance a).advance b = p.advance (a + b) := by
  unfold TablePosition.advance
  rw [Nat.add_assoc]

theorem advance_zero (p : TablePosition) : p.advance 0 = p := rfl

theorem writeOne_spec {wb : Workbook} {tpos : TPos} {t : Txn}
    {pos : TablePosition} {tab : MonthTable}
    (hpos : viewPos tpos (txnSheet t) (txnTable t) = some pos)
    (htab : viewTab wb (txnSheet t) (txnTable t) = some tab) :
    ∃ wb' tpos', writeOne wb tpos t = .ok (wb', tpos') ∧
      viewTab wb' (txnSheet t) (txnTable t) =
        some { tab with rows := writeRowAt tab.rows (pos.next_row - (pos.header_row + 1)) t } ∧
      viewPos tpos' (txnSheet t) (txnTable t) = some (pos.advance 1) ∧
      (∀ sn tn, ¬ (sn = txnSheet t ∧ tn = txnTable t) →
        viewTab wb' sn tn = viewTab wb sn tn ∧
          viewPos tpos' sn tn = viewPos tpos sn tn) := by
  unfold viewPos at hpos
  unfold viewTab at htab
  cases hge : alistGet (txnSheet t) tpos with
  | none => rw [hge] at hpos; exact absurd hpos (by simp)
  | some entries =>
    rw [hge] at hpos
    dsimp only at hpos
    cases hgs : alistGet (txnSheet t) wb.sheets with
    | none => rw [hgs] at htab; exact absurd htab (by simp)
    | some sh =>
      rw [hgs] at htab
      dsimp only at htab
      refine ⟨{ sheets := alistSet (txnSheet t) { sh with tables := alistSet (txnTable t) { tab with rows := writeRowAt tab.rows (pos.next_row - (pos.header_row + 1)) t } sh.tables } wb.sheets }, alistSet (txnSheet t) (alistSet (txnTable t) (pos.advance 1) entries) tpos, ?_, ?_, ?_, ?_⟩
      · unfold writeOne
        dsimp only
        rw [hge]
        dsimp only
        rw [hpos]
        dsimp only
        rw [hgs]
        dsimp only
        rw [htab]
      · unfold viewTab
        rw [alistGet_set_self (by simp [hgs])]
        dsimp only
        rw [alistGet_set_self (by simp [htab])]
      · unfold viewPos
        rw [alistGet_set_self (by simp [hge])]
        dsimp only
        rw [alistGet_set_self (by simp [hpos])]
      · intro sn tn hne
        by_cases hsn : sn = txnSheet t
        · subst hsn
          have htn : tn ≠ txnTable t := fun hx => hne ⟨rfl, hx⟩
          constructor
          · unfold viewTab
            rw [alistGet_set_self (by simp [hgs]), hgs]
            dsimp only
            rw [alistGet_set_other htn]
          · unfold viewPos
            rw [alistGet_set_self (by simp [hge]), hge]
            dsimp only
            rw [alistGet_set_other htn]
        · constructor
          · unfold viewTab
            rw [alistGet_set_other hsn]
          · unfold viewPos
            rw [alistGet_set_other hsn]

/-- The filter of records routed to a given key. -/
def routedTo (s : List Txn) (sn tn : String) : List Txn :=
  s.filter (fun t => decide (txnSheet t = sn ∧ txnTable t = tn))

theorem writeAll_spec :
    ∀ (s : List Txn) (wb : Workbook) (tpos : TPos),
      (∀ t ∈ s, ∃ pos tab,
        viewPos tpos (txnSheet t) (txnTable t) = some pos ∧
          viewTab wb (txnSheet t) (txnTable t) = some tab) →
      (∀ sn tn pos, viewPos tpos sn tn = some pos →
        pos.header_row + 1 ≤ pos.next_row) →
      ∃ wb' tpos', writeAll s wb tpos = .ok (wb', tpos') ∧
        ∀ sn tn,
          (∀ pos, viewPos tpos sn tn = some pos →
            viewPos tpos' sn tn = some (pos.advance (routedTo s sn tn).length)) ∧
          (viewPos tpos sn tn = none → viewPos tpos' sn tn = none) ∧
          (∀ pos tab, viewPos tpos sn tn = some pos →
            viewTab wb sn tn = some tab →
            viewTab wb' sn tn =
              some { tab with rows := writeSeq tab.rows (pos.next_row - (pos.header_row + 1)) (routedTo s sn tn) }) ∧
          (viewPos tpos sn tn = none → viewTab wb' sn tn = viewTab wb sn tn) := by
  intro s
  induction s with
  | nil =>
    intro wb tpos _ _
    refine ⟨wb, tpos, rfl, ?_⟩
    intro sn tn
    refine ⟨?_, ?_, ?_, ?_⟩
    · intro pos hp
      simp [routedTo, advance_zero, hp]
    · intro h; exact h
    · intro pos tab hp ht
      simp [routedTo, writeSeq, ht]
    · intro _; rfl
  | cons t rest ih =>
    intro wb tpos hview hinv
    obtain ⟨pos, tab, hpos, htab⟩ := hview t (by simp)
    obtain ⟨wb₁, tpos₁, hw1, htab1, hpos1, hother⟩ := writeOne_spec hpos htab
    have hviewrest : ∀ u ∈ rest, ∃ p2 t2,
        viewPos tpos₁ (txnSheet u) (txnTable u) = some p2 ∧
          viewTab wb₁ (txnSheet u) (txnTable u) = some t2 := by
      intro u hu
      by_cases hk : txnSheet u = txnSheet t ∧ txnTable u = txnTable t
      · rw [hk.1, hk.2]
        exact ⟨_, _, hpos1, htab1⟩
      · obtain ⟨p2, t2, hp2, ht2⟩ := hview u (by simp [hu])
        obtain ⟨he1, he2⟩ := hother (txnSheet u) (txnTable u) hk
        exact ⟨p2, t2, by rw [he2]; exact hp2, by rw [he1]; exact ht2⟩
    have hinv1 : ∀ sn tn p2, viewPos tpos₁ sn tn = some p2 →
        p2.header_row + 1 ≤ p2.next_row := by
      intro sn tn p2 hp2
      by_cases hk : sn = txnSheet t ∧ tn = txnTable t
      · rw [hk.1, hk.2] at hp2
        rw [hpos1] at hp2
        have := hinv _ _ _ hpos
        simp only [Option.some_inj] at hp2
        rw [← hp2]
        unfold TablePosition.advance
        simp only
        omega
      · obtain ⟨_, he2⟩ := hother sn tn hk
        rw [he2] at hp2
        exact hinv _ _ _ hp2
    obtain ⟨wb', tpos', hwrest, hkeys⟩ := ih wb₁ tpos₁ hviewrest hinv1
    refine ⟨wb', tpos', ?_, ?_⟩
    · unfold writeAll
      rw [hw1]
      exact hwrest
    · intro sn tn
      by_cases hk : sn = txnSheet t ∧ tn = txnTable t
      · obtain ⟨hk1, hk2⟩ := hk
        subst hk1
        subst hk2
        have hfilter : routedTo (t :: rest) (txnSheet t) (txnTable t) =
            t :: routedTo rest (txnSheet t) (txnTable t) := by
          unfold routedTo
          rw [List.filter_cons_of_pos (by simp)]
        refine ⟨?_, ?_, ?_, ?_⟩
        · intro p hp
          rw [hpos] at hp
          simp only [Option.some_inj] at hp
          subst hp
          have := (hkeys (txnSheet t) (txnTable t)).1 (pos.advance 1) hpos1
          rw [this, hfilter, advance_advance]
          simp only [List.length_cons]
          rw [Nat.add_comm 1 _]
        · intro hnone
          rw [hpos] at hnone
          exact absurd hnone (by simp)
        · intro p tb hp ht
          rw [hpos] at hp
          rw [htab] at ht
          simp only [Option.some_inj] at hp ht
          subst hp
          subst ht
          have hres := (hkeys (txnSheet t) (txnTable t)).2.2.1 (pos.advance 1)
            { tab with rows := writeRowAt tab.rows (pos.next_row - (pos.header_row + 1)) t }
            hpos1 htab1
          rw [hfilter]
          have hle := hinv _ _ _ hpos
          have hidx : pos.next_row + 1 - (pos.header_row + 1) =
              (pos.next_row - (pos.header_row + 1)) + 1 := by omega
          rw [show writeSeq tab.rows (pos.next_row - (pos.header_row + 1))
              (t :: routedTo rest (txnSheet t) (txnTable t)) =
            writeSeq (writeRowAt tab.rows (pos.next_row - (pos.header_row + 1)) t)
              ((pos.next_row - (pos.header_row + 1)) + 1)
              (routedTo rest (txnSheet t) (txnTable t)) from rfl]
          rw [← hidx]
          exact hres
        · intro hnone
          rw [hpos] at hnone
          exact absurd hnone (by simp)
      · obtain ⟨he1, he2⟩ := hother sn tn hk
        have hfilter : routedTo (t :: rest) sn tn = routedTo rest sn tn := by
          unfold routedTo
          rw [List.filter_cons_of_neg (by simpa using fun h1 h2 => hk ⟨h1.symm, h2.symm⟩)]
        obtain ⟨hk1, hk2, hk3, hk4⟩ := hkeys sn tn
        refine ⟨?_, ?_, ?_, ?_⟩
        · intro p hp
          rw [hfilter]
          exact hk1 p (by rw [he2]; exact hp)
        · intro hnone
          exact hk2 (by rw [he2]; exact hnone)
        · intro p tb hp ht
          rw [hfilter]
          exact hk3 p tb (by rw [he2]; exact hp) (by rw [he1]; exact ht)
        · intro hnone
          rw [← he1]
          exact hk4 (by rw [he2]; exact hnone)

/-!
Absorption: under a well-formed reference, reading a table's data range
back yields exactly its stored rows.
-/

theorem init?_next_row {ref : String} {p : TablePosition}
    (h : TablePosition.init? ref = some p) : p.next_row = p.header_row + 1 := by
  unfold TablePosition.init? at h
  cases hsp : splitRef ref with
  | none => rw [hsp] at h; exact absurd h (by simp)
  | some se =>
    obtain ⟨s, e⟩ := se
    rw [hsp] at h
    dsimp only at h
    cases hc1 : coordinate_from_string s with
    | none => rw [hc1] at h; exact absurd h (by simp)
    | some fe1 =>
      obtain ⟨fc, hr⟩ := fe1
      cases hc2 : coordinate_from_string e with
      | none => rw [hc1, hc2] at h; exact absurd h (by simp)
      | some fe2 =>
        obtain ⟨lc, ilr⟩ := fe2
        rw [hc1, hc2] at h
        dsimp only at h
        simp only [Option.some_inj] at h
        rw [← h]

theorem readRange_spec {tab : MonthTable} {hr : Nat} :
    ∀ (k j : Nat), j + k ≤ tab.rows.length →
      readRange tab hr (hr + 1 + j) k = .ok ((tab.rows.drop j).take k) := by
  intro k
  induction k with
  | zero => intro j h; simp [readRange]
  | succ k ih =>
    intro j h
    unfold readRange readCell
    have hidx : hr + 1 + j - (hr + 1) = j := by omega
    rw [hidx]
    have hj : j < tab.rows.length := by omega
    obtain ⟨a, ha⟩ : ∃ a, tab.rows.get? j = some a := by
      rw [List.get?_eq_getElem?]
      exact ⟨tab.rows[j], by simp [hj]⟩
    rw [ha]
    have hsh : hr + 1 + j + 1 = hr + 1 + (j + 1) := by omega
    rw [hsh, ih (j + 1) (by omega)]
    have hdropj : tab.rows.drop j = a :: tab.rows.drop (j + 1) := by
      rw [List.get?_eq_getElem?] at ha
      have := List.getElem?_eq_some_iff.mp ha
      obtain ⟨hlt, hget⟩ := this
      rw [List.drop_eq_getElem_cons hlt, hget]
    rw [hdropj]
    rfl

theorem absorbTable_stored {tab : MonthTable} {pos : TablePosition}
    (hpos : TablePosition.init? tab.ref = some pos)
    (_hwfe : tab.rows = [] → pos.initial_last_row = pos.header_row + 1)
    (hwfn : tab.rows ≠ [] → pos.header_row + 1 ≤ pos.initial_last_row ∧
      pos.initial_last_row - pos.header_row ≤ tab.rows.length) :
    absorbTable tab pos = .ok (storedRows tab) := by
  have hnr : pos.next_row = pos.header_row + 1 := init?_next_row hpos
  unfold absorbTable storedRows
  rw [hpos, hnr]
  unfold readCell
  cases hrows : tab.rows with
  | nil =>
    simp only [hrows, List.get?_nil, Option.isSome_none, Bool.false_eq_true, if_false]
    simp
  | cons r rs =>
    have hne : tab.rows ≠ [] := by rw [hrows]; simp
    obtain ⟨h1, h2⟩ := hwfn hne
    have hget : tab.rows.get? (pos.header_row + 1 - (pos.header_row + 1)) = some r := by
      have : pos.header_row + 1 - (pos.header_row + 1) = 0 := by omega
      rw [this, hrows]
      rfl
    rw [← hrows]
    rw [hget]
    simp only [Option.isSome_some, if_true]
    have hk : pos.initial_last_row + 1 - (pos.header_row + 1) =
        pos.initial_last_row - pos.header_row := by omega
    rw [hk]
    have := @readRange_spec tab pos.header_row
      (pos.initial_last_row - pos.header_row) 0 (by omega)
    rw [show pos.header_row + 1 + 0 = pos.header_row + 1 from by omega] at this
    rw [this]
    simp

/-!
Well-formedness of the workbook's span tables, as executable checks.
-/

/-- A month table is well formed for `(y, m)` when its reference
parses, the reference's data range is consistent with the stored grid
rows, and every stored row is dated inside month `m` of year `y`. -/
def tableWFb (tab : MonthTable) (y m : Nat) : Bool :=
  match TablePosition.init? tab.ref with
  | none => false
  | some pos =>
    (if tab.rows.isEmpty then decide (pos.initial_last_row = pos.header_row + 1)
     else decide (pos.header_row + 1 ≤ pos.initial_last_row) &&
       decide (pos.initial_last_row - pos.header_row ≤ tab.rows.length)) &&
    (storedRows tab).all
      (fun t => decide (t.date.year = y) && decide (t.date.month = m))

/-- Every month table of the span that exists in the workbook is well
formed (sheets the update will create are exempt; a span sheet that
exists but lacks a month table fails the check, as the update raises). -/
def spanWFb (wb : Workbook) (o n : Date) : Bool :=
  (spanYears o n).all fun y =>
    (spanMonths o n y).all fun m =>
      match alistGet (natToDecStr y) wb.sheets with
      | none => true
      | some sh =>
        match alistGet (month_table_name (month_name m) (natToDecStr y)) sh.tables with
        | none => false
        | some tab => tableWFb tab y m

/-- Every record's month is a calendar month (normalized input always
satisfies this; a record violating it would make the update raise). -/
def validMonthsb (df : List Txn) : Bool :=
  df.all fun t => decide (1 ≤ t.date.month) && decide (t.date.month ≤ 12)

/-!
Characterization of the create, initialize and absorb phases.
-/

theorem alistGet_isSome_iff {α : Type} {l : List (String × α)} {k : String} :
    (alistGet k l).isSome ↔ k ∈ l.map Prod.fst := by
  induction l with
  | nil => simp [alistGet]
  | cons p t ih =>
    obtain ⟨k', v'⟩ := p
    by_cases h : k' = k
    · simp [alistGet, h]
    · simp only [alistGet, h, if_false, List.map_cons, List.mem_cons]
      rw [ih]
      constructor
      · exact fun hx => Or.inr hx
      · rintro (hx | hx)
        · exact absurd hx.symm h
        · exact hx

theorem alistGet_mem {α : Type} {l : List (String × α)} {k : String} {v : α}
    (h : alistGet k l = some v) : (k, v) ∈ l := by
  induction l with
  | nil => simp [alistGet] at h
  | cons p t ih =>
    obtain ⟨k', v'⟩ := p
    by_cases hk : k' = k
    · subst hk
      simp only [alistGet, if_true] at h
      simp only [Option.some_inj] at h
      subst h
      simp
    · simp only [alistGet, hk, if_false] at h
      exact List.mem_cons_of_mem _ (ih h)

theorem contains_iff_isSome {α : Type} {l : List (String × α)} {k : String} :
    (l.map Prod.fst).contains k = true ↔ (alistGet k l).isSome := by
  rw [alistGet_isSome_iff]
  simp

theorem createYearSheets_ok (ys : List Nat) :
    ∀ (wb : Workbook),
      ∃ wb', createYearSheets ys wb = .ok wb' ∧
        (∀ k, (alistGet k wb.sheets).isSome →
          alistGet k wb'.sheets = alistGet k wb.sheets) ∧
        (∀ y ∈ ys, ∃ sh, alistGet (natToDecStr y) wb'.sheets = some sh ∧
          (alistGet (natToDecStr y) wb.sheets = some sh ∨
            (alistGet (natToDecStr y) wb.sheets = none ∧ sh = newYearSheet y))) := by
  induction ys with
  | nil => intro wb; exact ⟨wb, rfl, fun _ _ => rfl, by simp⟩
  | cons y ys ih =>
    intro wb
    unfold createYearSheets
    by_cases hc : (wb.sheets.map Prod.fst).contains (natToDecStr y) = true
    · rw [if_pos hc]
      obtain ⟨wb', hok, hpres, hall⟩ := ih wb
      refine ⟨wb', hok, hpres, ?_⟩
      intro y' hy'
      rcases List.mem_cons.mp hy' with hy' | hy'
      · subst hy'
        have hsome := contains_iff_isSome.mp hc
        obtain ⟨sh, hsh⟩ := Option.isSome_iff_exists.mp hsome
        exact ⟨sh, by rw [hpres _ hsome]; exact hsh, Or.inl hsh⟩
      · exact hall y' hy'
    · rw [if_neg hc]
      unfold create_year_sheet
      rw [if_neg hc]
      set wbP : Workbook := { sheets := (natToDecStr y, newYearSheet y) :: wb.sheets } with hwbP
      obtain ⟨wb', hok, hpres, hall⟩ := ih wbP
      have hgetPself : alistGet (natToDecStr y) wbP.sheets = some (newYearSheet y) := by
        rw [hwbP]
        simp [alistGet]
      have hgetP : ∀ k, (alistGet k wb.sheets).isSome →
          alistGet k wbP.sheets = alistGet k wb.sheets := by
        intro k hk
        have hne : natToDecStr y ≠ k := by
          intro hx
          subst hx
          rw [contains_iff_isSome] at hc
          exact hc hk
        rw [hwbP]
        show (if natToDecStr y = k then some (newYearSheet y) else alistGet k wb.sheets) = alistGet k wb.sheets
        rw [if_neg hne]
      refine ⟨wb', hok, ?_, ?_⟩
      · intro k hk
        rw [hpres k (by rw [hgetP k hk]; exact hk), hgetP k hk]
      · intro y' hy'
        rcases List.mem_cons.mp hy' with hy' | hy'
        · subst hy'
          refine ⟨newYearSheet y', ?_, Or.inr ⟨?_, rfl⟩⟩
          · rw [hpres _ (by rw [hgetPself]; rfl), hgetPself]
          · rw [← Option.not_isSome_iff_eq_none]
            rw [contains_iff_isSome] at hc
            exact hc
        · obtain ⟨sh, hsh, hdisj⟩ := hall y' hy'
          rcases hdisj with hd | hd
          · by_cases hyy : (alistGet (natToDecStr y') wb.sheets).isSome
            · refine ⟨sh, hsh, Or.inl ?_⟩
              rw [← hgetP _ hyy]
              exact hd
            · -- the sheet was absent in wb but present in wbP: it is the new sheet
              rw [hwbP] at hd
              by_cases hkey : natToDecStr y = natToDecStr y'
              · refine ⟨sh, hsh, Or.inr ⟨Option.not_isSome_iff_eq_none.mp hyy, ?_⟩⟩
                simp only [alistGet, hkey, if_true] at hd
                simp only [Option.some_inj] at hd
                have : y = y' := natToDecStr_inj hkey
                rw [← hd, this]
              · simp only [alistGet, hkey, if_false] at hd
                exact absurd (by rw [hd]; rfl) hyy
          · obtain ⟨hdnone, hdnew⟩ := hd
            refine ⟨sh, hsh, Or.inr ⟨?_, hdnew⟩⟩
            rw [← Option.not_isSome_iff_eq_none]
            intro hx
            rw [hgetP _ hx] at hdnone
            rw [hdnone] at hx
            exact absurd hx (by simp)

theorem createYearSheets_noop {ys : List Nat} :
    ∀ {wb : Workbook}, (∀ y ∈ ys, (alistGet (natToDecStr y) wb.sheets).isSome) →
      createYearSheets ys wb = .ok wb := by
  induction ys with
  | nil => intro wb _; rfl
  | cons y ys ih =>
    intro wb h
    unfold createYearSheets
    rw [if_pos (contains_iff_isSome.mpr (h y (by simp)))]
    exact ih (fun y' hy' => h y' (by simp [hy']))

def dummyPos : TablePosition :=
  { first_col := "", header_row := 0, next_row := 0, first_col_ind := 0,
    last_col := "", initial_last_row := 0 }

/-- The parsed position of a span table (a placeholder off the success
paths; under the well-formedness hypotheses it is the actual parse). -/
def posOf (wb : Workbook) (y m : Nat) : TablePosition :=
  match monthTable? wb y m with
  | none => dummyPos
  | some tab => (TablePosition.init? tab.ref).getD dummyPos

/-- The stored rows of a span table, `[]` when it is missing. -/
def storedOf (wb : Workbook) (y m : Nat) : List Txn :=
  match monthTable? wb y m with
  | none => []
  | some tab => storedRows tab

theorem monthTable?_viewTab (wb : Workbook) (y m : Nat) :
    monthTable? wb y m =
      viewTab wb (natToDecStr y) (month_table_name (month_name m) (natToDecStr y)) := rfl

theorem collectStored_eq (wb : Workbook) (o n : Date) :
    collectStored wb o n =
      (spanYears o n).flatMap fun y =>
        (spanMonths o n y).flatMap fun m => storedOf wb y m := rfl

/-- The structure `initPositions` produces when every span table
resolves. -/
def initStruct (wb : Workbook) (o n : Date) (ys : List Nat) : TPos :=
  ys.map fun y =>
    (natToDecStr y, (spanMonths o n y).map fun m =>
      (month_table_name (month_name m) (natToDecStr y), posOf wb y m))

theorem initMonthPositions_eq {wb : Workbook} {y : Nat} {sh : Sheet}
    (hsh : alistGet (natToDecStr y) wb.sheets = some sh) :
    ∀ (ms : List Nat),
      (∀ m ∈ ms, ∃ tab pos,
        alistGet (month_table_name (month_name m) (natToDecStr y)) sh.tables = some tab ∧
          TablePosition.init? tab.ref = some pos) →
      initMonthPositions sh (natToDecStr y) ms =
        .ok (ms.map fun m =>
          (month_table_name (month_name m) (natToDecStr y), posOf wb y m)) := by
  intro ms
  induction ms with
  | nil => intro _; rfl
  | cons m ms ih =>
    intro h
    obtain ⟨tab, pos, htab, hpos⟩ := h m (by simp)
    simp only [List.map_cons]
    unfold initMonthPositions
    dsimp only
    rw [htab]
    dsimp only
    rw [hpos]
    dsimp only
    rw [ih (fun m' hm' => h m' (by simp [hm']))]
    have hposOf : posOf wb y m = pos := by
      unfold posOf monthTable?
      rw [hsh]
      dsimp only
      rw [htab]
      dsimp only
      rw [hpos]
      rfl
    rw [hposOf]

theorem initPositions_eq {wb : Workbook} {o n : Date} :
    ∀ (ys : List Nat),
      (∀ y ∈ ys, ∃ sh, alistGet (natToDecStr y) wb.sheets = some sh ∧
        ∀ m ∈ spanMonths o n y, ∃ tab pos,
          alistGet (month_table_name (month_name m) (natToDecStr y)) sh.tables = some tab ∧
            TablePosition.init? tab.ref = some pos) →
      initPositions wb o n ys = .ok (initStruct wb o n ys) := by
  intro ys
  induction ys with
  | nil => intro _; rfl
  | cons y ys ih =>
    intro h
    obtain ⟨sh, hsh, hms⟩ := h y (by simp)
    unfold initPositions
    dsimp only
    rw [hsh]
    dsimp only
    rw [initMonthPositions_eq hsh (spanMonths o n y) hms]
    dsimp only
    rw [ih (fun y' hy' => h y' (by simp [hy']))]
    rfl

theorem absorbSheet_eq {wb : Workbook} {y : Nat} {sh : Sheet}
    (hsh : alistGet (natToDecStr y) wb.sheets = some sh) :
    ∀ (ms : List Nat),
      (∀ m ∈ ms, ∃ tab,
        alistGet (month_table_name (month_name m) (natToDecStr y)) sh.tables = some tab ∧
          absorbTable tab (posOf wb y m) = .ok (storedRows tab)) →
      absorbSheet sh (ms.map fun m =>
          (month_table_name (month_name m) (natToDecStr y), posOf wb y m)) =
        .ok (ms.flatMap fun m => storedOf wb y m) := by
  intro ms
  induction ms with
  | nil => intro _; rfl
  | cons m ms ih =>
    intro h
    obtain ⟨tab, htab, habs⟩ := h m (by simp)
    simp only [List.map_cons]
    unfold absorbSheet
    rw [htab]
    dsimp only
    rw [habs]
    dsimp only
    rw [ih (fun m' hm' => h m' (by simp [hm']))]
    dsimp only
    have hst : storedOf wb y m = storedRows tab := by
      unfold storedOf monthTable?
      rw [hsh]
      dsimp only
      rw [htab]
    rw [List.flatMap_cons, hst]

theorem absorbAll_eq {wb : Workbook} {o n : Date} :
    ∀ (ys : List Nat),
      (∀ y ∈ ys, ∃ sh, alistGet (natToDecStr y) wb.sheets = some sh ∧
        ∀ m ∈ spanMonths o n y, ∃ tab,
          alistGet (month_table_name (month_name m) (natToDecStr y)) sh.tables = some tab ∧
            absorbTable tab (posOf wb y m) = .ok (storedRows tab)) →
      absorbAll wb (initStruct wb o n ys) =
        .ok (ys.flatMap fun y => (spanMonths o n y).flatMap fun m => storedOf wb y m) := by
  intro ys
  induction ys with
  | nil => intro _; rfl
  | cons y ys ih =>
    intro h
    obtain ⟨sh, hsh, hms⟩ := h y (by simp)
    unfold initStruct
    simp only [List.map_cons]
    unfold absorbAll
    rw [hsh]
    dsimp only
    rw [absorbSheet_eq hsh (spanMonths o n y) hms]
    dsimp only
    have := ih (fun y' hy' => h y' (by simp [hy']))
    unfold initStruct at this
    rw [this]
    dsimp only
    rw [List.flatMap_cons]

theorem natToDecStr_injective : Function.Injective natToDecStr :=
  fun _ _ h => natToDecStr_inj h

theorem initStruct_keys (wb : Workbook) (o n : Date) (ys : List Nat) :
    (initStruct wb o n ys).map Prod.fst = ys.map natToDecStr := by
  simp [initStruct]

theorem spanMonths_bounds {o n : Date} {y m : Nat}
    (ho : 1 ≤ o.month) (hn : n.month ≤ 12) (hm : m ∈ spanMonths o n y) :
    1 ≤ m ∧ m ≤ 12 := by
  rw [mem_spanMonths] at hm
  split_ifs at hm <;> omega

theorem dateMinFold_mem (d : Date) (l : List Date) : dateMinFold d l ∈ d :: l := by
  induction l generalizing d with
  | nil => simp [dateMinFold]
  | cons b bs ih =>
    have hstep : dateMinFold d (b :: bs) = dateMinFold (if dateLt b d = true then b else d) bs := rfl
    rw [hstep]
    by_cases hbd : dateLt b d = true
    · rw [if_pos hbd]
      rcases List.mem_cons.mp (ih b) with h | h
      · rw [h]; simp
      · simp [h]
    · rw [if_neg hbd]
      rcases List.mem_cons.mp (ih d) with h | h
      · rw [h]; simp
      · simp [h]

theorem dateMaxFold_mem (d : Date) (l : List Date) : dateMaxFold d l ∈ d :: l := by
  induction l generalizing d with
  | nil => simp [dateMaxFold]
  | cons b bs ih =>
    have hstep : dateMaxFold d (b :: bs) = dateMaxFold (if dateLt d b = true then b else d) bs := rfl
    rw [hstep]
    by_cases hbd : dateLt d b = true
    · rw [if_pos hbd]
      rcases List.mem_cons.mp (ih b) with h | h
      · rw [h]; simp
      · simp [h]
    · rw [if_neg hbd]
      rcases List.mem_cons.mp (ih d) with h | h
      · rw [h]; simp
      · simp [h]

theorem validMonthsb_elim {df : List Txn} (h : validMonthsb df = true) :
    ∀ t ∈ df, 1 ≤ t.date.month ∧ t.date.month ≤ 12 := by
  intro t ht
  unfold validMonthsb at h
  rw [List.all_eq_true] at h
  have := h t ht
  simp only [Bool.and_eq_true, decide_eq_true_eq] at this
  exact this

theorem oldestDate_month_bound {df : List Txn} (hne : df ≠ [])
    (hvm : validMonthsb df = true) :
    1 ≤ (oldestDate df).month ∧ (oldestDate df).month ≤ 12 := by
  cases df with
  | nil => exact absurd rfl hne
  | cons h r =>
    unfold oldestDate
    dsimp only
    have hmem := dateMinFold_mem h.date (r.map (fun x => x.date))
    rcases List.mem_cons.mp hmem with hx | hx
    · rw [hx]
      exact validMonthsb_elim hvm h (by simp)
    · obtain ⟨t, ht, heq⟩ := List.mem_map.mp hx
      rw [← heq]
      exact validMonthsb_elim hvm t (by simp [ht])

theorem newestDate_month_bound {df : List Txn} (hne : df ≠ [])
    (hvm : validMonthsb df = true) :
    1 ≤ (newestDate df).month ∧ (newestDate df).month ≤ 12 := by
  cases df with
  | nil => exact absurd rfl hne
  | cons h r =>
    unfold newestDate
    dsimp only
    have hmem := dateMaxFold_mem h.date (r.map (fun x => x.date))
    rcases List.mem_cons.mp hmem with hx | hx
    · rw [hx]
      exact validMonthsb_elim hvm h (by simp)
    · obtain ⟨t, ht, heq⟩ := List.mem_map.mp hx
      rw [← heq]
      exact validMonthsb_elim hvm t (by simp [ht])

theorem spanMonths_nodup (o n : Date) (y : Nat) : (spanMonths o n y).Nodup := by
  unfold spanMonths
  exact List.nodup_range' _ _

theorem spanYears_nodup (o n : Date) : (spanYears o n).Nodup := by
  unfold spanYears
  exact List.nodup_range' _ _

theorem monthKeys_nodup {o n : Date} {y : Nat} (sname : String)
    (ho : 1 ≤ o.month) (hn : n.month ≤ 12) :
    ((spanMonths o n y).map fun m => month_table_name (month_name m) sname).Nodup := by
  apply List.Nodup.map_on
  · intro m1 h1 m2 h2 heq
    exact month_name_inj (spanMonths_bounds ho hn h1) (spanMonths_bounds ho hn h2)
      (month_table_name_inj_month heq)
  · exact spanMonths_nodup o n y

theorem viewPos_initStruct {wb : Workbook} {o n : Date} {ys : List Nat}
    (hnd : ys.Nodup) (ho : 1 ≤ o.month) (hn : n.month ≤ 12)
    {y m : Nat} (hy : y ∈ ys) (hm : m ∈ spanMonths o n y) :
    viewPos (initStruct wb o n ys) (natToDecStr y)
      (month_table_name (month_name m) (natToDecStr y)) = some (posOf wb y m) := by
  unfold viewPos
  have houter : alistGet (natToDecStr y) (initStruct wb o n ys) =
      some ((spanMonths o n y).map fun m =>
        (month_table_name (month_name m) (natToDecStr y), posOf wb y m)) := by
    apply alistGet_of_mem_nodup
    · rw [initStruct_keys]
      exact hnd.map natToDecStr_injective
    · unfold initStruct
      exact List.mem_map.mpr ⟨y, hy, rfl⟩
  rw [houter]
  apply alistGet_of_mem_nodup
  · have : (((spanMonths o n y).map fun m =>
        (month_table_name (month_name m) (natToDecStr y), posOf wb y m)).map Prod.fst) =
        (spanMonths o n y).map fun m => month_table_name (month_name m) (natToDecStr y) := by
      simp
    rw [this]
    exact monthKeys_nodup (natToDecStr y) ho hn
  · exact List.mem_map.mpr ⟨m, hm, rfl⟩

theorem viewPos_initStruct_inv {wb : Workbook} {o n : Date} {ys : List Nat}
    {sn tn : String} {pos : TablePosition}
    (h : viewPos (initStruct wb o n ys) sn tn = some pos) :
    ∃ y ∈ ys, ∃ m ∈ spanMonths o n y, sn = natToDecStr y ∧
      tn = month_table_name (month_name m) (natToDecStr y) ∧ pos = posOf wb y m := by
  unfold viewPos at h
  cases hga : alistGet sn (initStruct wb o n ys) with
  | none => rw [hga] at h; exact absurd h (by simp)
  | some entries =>
    rw [hga] at h
    dsimp only at h
    have hmem := alistGet_mem hga
    unfold initStruct at hmem
    obtain ⟨y, hy, heq⟩ := List.mem_map.mp hmem
    have hsn : natToDecStr y = sn := congrArg Prod.fst heq
    have hent : ((spanMonths o n y).map fun m =>
        (month_table_name (month_name m) (natToDecStr y), posOf wb y m)) = entries :=
      congrArg Prod.snd heq
    rw [← hent] at h
    have hmem2 := alistGet_mem h
    obtain ⟨m, hm, heq2⟩ := List.mem_map.mp hmem2
    have htn : month_table_name (month_name m) (natToDecStr y) = tn :=
      congrArg Prod.fst heq2
    have hpos : posOf wb y m = pos := congrArg Prod.snd heq2
    exact ⟨y, hy, m, hm, hsn.symm, htn.symm, hpos.symm⟩

/-!
Fresh year sheets: table lookup and well-formedness.
-/

theorem newYearSheet_table {year m : Nat} (hm : 1 ≤ m ∧ m ≤ 12) :
    alistGet (month_table_name (month_name m) (natToDecStr year))
        (newYearSheet year).tables =
      some { ref := monthTableInitRef (MONTH_TABLES_COL + (3 + 1) * (m - 1)),
             rows := [] } := by
  apply alistGet_of_mem_nodup
  · have hkeys : ((newYearSheet year).tables.map Prod.fst) =
        (List.range 12).map
          (fun i => month_table_name (month_name (i + 1)) (natToDecStr year)) := by
      simp [newYearSheet]
    rw [hkeys]
    apply List.Nodup.map_on
    · intro i hi j hj heq
      have hib : 1 ≤ i + 1 ∧ i + 1 ≤ 12 := by
        rw [List.mem_range] at hi
        omega
      have hjb : 1 ≤ j + 1 ∧ j + 1 ≤ 12 := by
        rw [List.mem_range] at hj
        omega
      have := month_name_inj hib hjb (month_table_name_inj_month heq)
      omega
    · exact List.nodup_range _
  · unfold newYearSheet
    apply List.mem_map.mpr
    refine ⟨m - 1, by rw [List.mem_range]; omega, ?_⟩
    have hmm : m - 1 + 1 = m := by omega
    rw [hmm]

theorem monthTableInitRef_parse {c : Nat} (hc : 1 ≤ c) :
    TablePosition.init? (monthTableInitRef c) =
      some { first_col := get_column_letter c, header_row := MONTH_TABLES_ROW + 1,
             next_row := MONTH_TABLES_ROW + 2,
             first_col_ind := column_index_from_string (get_column_letter c),
             last_col := get_column_letter (c + 2),
             initial_last_row := MONTH_TABLES_ROW + 2 } := by
  unfold monthTableInitRef
  exact init?_of_format (get_column_letter_colStr hc)
    (get_column_letter_colStr (by omega)) (MONTH_TABLES_ROW + 1) (MONTH_TABLES_ROW + 2)

theorem freshTable_wf {c : Nat} (hc : 1 ≤ c) (y m : Nat) :
    tableWFb { ref := monthTableInitRef c, rows := [] } y m = true := by
  unfold tableWFb
  rw [show ({ ref := monthTableInitRef c, rows := [] } : MonthTable).ref =
    monthTableInitRef c from rfl]
  rw [monthTableInitRef_parse hc]
  unfold storedRows
  rw [show ({ ref := monthTableInitRef c, rows := [] } : MonthTable).ref =
    monthTableInitRef c from rfl]
  rw [monthTableInitRef_parse hc]
  simp [MONTH_TABLES_ROW]

theorem freshTable_stored {c : Nat} (hc : 1 ≤ c) :
    storedRows { ref := monthTableInitRef c, rows := [] } = [] := by
  unfold storedRows
  rw [show ({ ref := monthTableInitRef c, rows := [] } : MonthTable).ref =
    monthTableInitRef c from rfl]
  rw [monthTableInitRef_parse hc]
  simp

theorem tableWFb_elim {tab : MonthTable} {y m : Nat} (h : tableWFb tab y m = true) :
    ∃ pos, TablePosition.init? tab.ref = some pos ∧
      (tab.rows = [] → pos.initial_last_row = pos.header_row + 1) ∧
      (tab.rows ≠ [] → pos.header_row + 1 ≤ pos.initial_last_row ∧
        pos.initial_last_row - pos.header_row ≤ tab.rows.length) ∧
      (∀ t ∈ storedRows tab, t.date.year = y ∧ t.date.month = m) := by
  unfold tableWFb at h
  cases hp : TablePosition.init? tab.ref with
  | none => rw [hp] at h; exact absurd h (by simp)
  | some pos =>
    rw [hp] at h
    dsimp only at h
    rw [Bool.and_eq_true] at h
    obtain ⟨h1, h2⟩ := h
    refine ⟨pos, rfl, ?_, ?_, ?_⟩
    · intro hrows
      rw [if_pos (by simp [hrows])] at h1
      exact decide_eq_true_eq.mp h1
    · intro hrows
      rw [if_neg (by simpa using hrows)] at h1
      rw [Bool.and_eq_true] at h1
      exact ⟨decide_eq_true_eq.mp h1.1, decide_eq_true_eq.mp h1.2⟩
    · intro t ht
      rw [List.all_eq_true] at h2
      have := h2 t ht
      rw [Bool.and_eq_true] at this
      exact ⟨decide_eq_true_eq.mp this.1, decide_eq_true_eq.mp this.2⟩

theorem spanWFb_elim {wb : Workbook} {o n : Date} (h : spanWFb wb o n = true) :
    ∀ y ∈ spanYears o n, ∀ m ∈ spanMonths o n y,
      ∀ sh, alistGet (natToDecStr y) wb.sheets = some sh →
        ∃ tab, alistGet (month_table_name (month_name m) (natToDecStr y)) sh.tables
            = some tab ∧ tableWFb tab y m = true := by
  intro y hy m hm sh hsh
  unfold spanWFb at h
  rw [List.all_eq_true] at h
  have h1 := h y hy
  rw [List.all_eq_true] at h1
  have h2 := h1 m hm
  rw [hsh] at h2
  dsimp only at h2
  cases htab : alistGet (month_table_name (month_name m) (natToDecStr y)) sh.tables with
  | none => rw [htab] at h2; exact absurd h2 (by simp)
  | some tab =>
    rw [htab] at h2
    exact ⟨tab, rfl, h2⟩

/-!
Shape preservation through the write phase, and the finalize phase.
-/

theorem alistSet_map_fst {α : Type} (k : String) (v : α) (l : List (String × α)) :
    (alistSet k v l).map Prod.fst = l.map Prod.fst := by
  induction l with
  | nil => rfl
  | cons p t ih =>
    obtain ⟨k', v'⟩ := p
    by_cases h : k' = k
    · simp [alistSet, h]
    · simp [alistSet, h, ih]

theorem writeOne_keys {wb : Workbook} {tpos : TPos} {t : Txn}
    {wb' : Workbook} {tpos' : TPos} (h : writeOne wb tpos t = .ok (wb', tpos')) :
    tpos'.map Prod.fst = tpos.map Prod.fst ∧
      ∀ sn entries', alistGet sn tpos' = some entries' →
        ∃ entries, alistGet sn tpos = some entries ∧
          entries'.map Prod.fst = entries.map Prod.fst := by
  unfold writeOne at h
  dsimp only at h
  cases hge : alistGet (txnSheet t) tpos with
  | none => rw [hge] at h; exact absurd h (by simp)
  | some entries =>
    rw [hge] at h
    dsimp only at h
    cases hpe : alistGet (txnTable t) entries with
    | none => rw [hpe] at h; exact absurd h (by simp)
    | some pos =>
      rw [hpe] at h
      dsimp only at h
      cases hgs : alistGet (txnSheet t) wb.sheets with
      | none => rw [hgs] at h; exact absurd h (by simp)
      | some sh =>
        rw [hgs] at h
        dsimp only at h
        cases htb : alistGet (txnTable t) sh.tables with
        | none => rw [htb] at h; exact absurd h (by simp)
        | some tab =>
          rw [htb] at h
          dsimp only at h
          simp only [Except.ok.injEq, Prod.mk.injEq] at h
          obtain ⟨hwb, htp⟩ := h
          subst htp
          constructor
          · exact alistSet_map_fst _ _ _
          · intro sn entries' hsn
            by_cases hk : txnSheet t = sn
            · subst hk
              rw [alistGet_set_self (by simp [hge])] at hsn
              simp only [Option.some_inj] at hsn
              exact ⟨entries, hge, by rw [← hsn]; exact alistSet_map_fst _ _ _⟩
            · rw [alistGet_set_other (fun hx => hk hx.symm)] at hsn
              exact ⟨entries', hsn, rfl⟩

theorem writeAll_keys :
    ∀ {s : List Txn} {wb : Workbook} {tpos : TPos} {wb' : Workbook} {tpos' : TPos},
      writeAll s wb tpos = .ok (wb', tpos') →
      tpos'.map Prod.fst = tpos.map Prod.fst ∧
        ∀ sn entries', alistGet sn tpos' = some entries' →
          ∃ entries, alistGet sn tpos = some entries ∧
            entries'.map Prod.fst = entries.map Prod.fst := by
  intro s
  induction s with
  | nil =>
    intro wb tpos wb' tpos' h
    unfold writeAll at h
    simp only [Except.ok.injEq, Prod.mk.injEq] at h
    obtain ⟨h1, h2⟩ := h
    subst h2
    exact ⟨rfl, fun sn e' hsn => ⟨e', hsn, rfl⟩⟩
  | cons t rest ih =>
    intro wb tpos wb' tpos' h
    unfold writeAll at h
    cases hw1 : writeOne wb tpos t with
    | error e => rw [hw1] at h; exact absurd h (by simp)
    | ok pair =>
      obtain ⟨wb₁, tpos₁⟩ := pair
      rw [hw1] at h
      dsimp only at h
      obtain ⟨hk1, hk2⟩ := writeOne_keys hw1
      obtain ⟨hk1', hk2'⟩ := ih h
      refine ⟨hk1'.trans hk1, ?_⟩
      intro sn entries' hsn
      obtain ⟨e1, he1, hm1⟩ := hk2' sn entries' hsn
      obtain ⟨e0, he0, hm0⟩ := hk2 sn e1 he1
      exact ⟨e0, he0, hm1.trans hm0⟩

theorem finalizeOne_spec {wb : Workbook} {sname tname : String}
    {pos : TablePosition} {tab : MonthTable}
    (htab : viewTab wb sname tname = some tab) :
    ∃ wb', finalizeOne wb sname tname pos = .ok wb' ∧
      viewTab wb' sname tname = some { tab with ref := pos.get_ref } ∧
      (∀ sn tn, ¬ (sn = sname ∧ tn = tname) →
        viewTab wb' sn tn = viewTab wb sn tn) := by
  unfold viewTab at htab
  cases hgs : alistGet sname wb.sheets with
  | none => rw [hgs] at htab; exact absurd htab (by simp)
  | some sh =>
    rw [hgs] at htab
    dsimp only at htab
    have htabeq : (if pos.get_ref ≠ tab.ref then { tab with ref := pos.get_ref }
        else tab) = { tab with ref := pos.get_ref } := by
      by_cases hr : pos.get_ref ≠ tab.ref
      · rw [if_pos hr]
      · rw [if_neg hr]
        push_neg at hr
        cases tab
        simp only at hr ⊢
        rw [hr]
    refine ⟨{ sheets := alistSet sname { sh with tables := alistSet tname (if pos.get_ref ≠ tab.ref then { tab with ref := pos.get_ref } else tab) sh.tables } wb.sheets }, ?_, ?_, ?_⟩
    · unfold finalizeOne
      rw [hgs]
      dsimp only
      rw [htab]
    · unfold viewTab
      rw [alistGet_set_self (by simp [hgs])]
      dsimp only
      rw [alistGet_set_self (by simp [htab]), htabeq]
    · intro sn tn hne
      by_cases hsn : sn = sname
      · subst hsn
        have htn : tn ≠ tname := fun hx => hne ⟨rfl, hx⟩
        unfold viewTab
        rw [alistGet_set_self (by simp [hgs]), hgs]
        dsimp only
        rw [alistGet_set_other htn]
      · unfold viewTab
        rw [alistGet_set_other hsn]

theorem finalizeSheet_spec {sname : String} :
    ∀ (entries : List (String × TablePosition)) (wb : Workbook),
      (entries.map Prod.fst).Nodup →
      (∀ e ∈ entries, (viewTab wb sname e.1).isSome) →
      ∃ wb', finalizeSheet sname entries wb = .ok wb' ∧
        (∀ tn pos, (tn, pos) ∈ entries → ∀ tab, viewTab wb sname tn = some tab →
          viewTab wb' sname tn = some { tab with ref := pos.get_ref }) ∧
        (∀ sn tn, (sn ≠ sname ∨ tn ∉ entries.map Prod.fst) →
          viewTab wb' sn tn = viewTab wb sn tn) := by
  intro entries
  induction entries with
  | nil =>
    intro wb _ _
    exact ⟨wb, rfl, by simp, fun _ _ _ => rfl⟩
  | cons e rest ih =>
    intro wb hnd hview
    obtain ⟨tn0, pos0⟩ := e
    have hv0 := hview (tn0, pos0) (by simp)
    obtain ⟨tab0, htab0⟩ := Option.isSome_iff_exists.mp hv0
    obtain ⟨wb₁, hf1, htabf, hpres⟩ := @finalizeOne_spec _ _ _ pos0 _ htab0
    simp only [List.map_cons, List.nodup_cons] at hnd
    have hndr := hnd.2
    have htn0notin : tn0 ∉ rest.map Prod.fst := hnd.1
    have hviewr : ∀ e ∈ rest, (viewTab wb₁ sname e.1).isSome := by
      intro e he
      have hne : ¬ (sname = sname ∧ e.1 = tn0) := by
        rintro ⟨_, hx⟩
        exact htn0notin (hx ▸ List.mem_map.mpr ⟨e, he, rfl⟩)
      rw [hpres sname e.1 hne]
      exact hview e (by simp [he])
    obtain ⟨wb', hfr, hclaim, hpresr⟩ := ih wb₁ hndr hviewr
    refine ⟨wb', ?_, ?_, ?_⟩
    · unfold finalizeSheet
      rw [hf1]
      exact hfr
    · intro tn pos hmem tab htab
      rcases List.mem_cons.mp hmem with hm | hm
      · have h1 : tn = tn0 := congrArg Prod.fst hm
        have h2 : pos = pos0 := congrArg Prod.snd hm
        subst h1
        subst h2
        rw [htab0] at htab
        simp only [Option.some_inj] at htab
        subst htab
        rw [hpresr sname tn (Or.inr htn0notin)]
        exact htabf
      · have hne : ¬ (sname = sname ∧ tn = tn0) := by
          rintro ⟨_, hx⟩
          exact htn0notin (hx ▸ List.mem_map.mpr ⟨(tn, pos), hm, rfl⟩)
        refine hclaim tn pos hm tab ?_
        rw [hpres sname tn hne]
        exact htab
    · intro sn tn hc
      have hc' : sn ≠ sname ∨ tn ∉ rest.map Prod.fst := by
        rcases hc with hc | hc
        · exact Or.inl hc
        · refine Or.inr fun hx => hc ?_
          simp only [List.map_cons, List.mem_cons]
          exact Or.inr hx
      rw [hpresr sn tn hc']
      apply hpres
      rintro ⟨h1, h2⟩
      rcases hc with hc | hc
      · exact hc h1
      · exact hc (by simp [h2])

theorem finalizeAll_spec :
    ∀ (tpos : TPos) (wb : Workbook),
      (tpos.map Prod.fst).Nodup →
      (∀ sn entries, (sn, entries) ∈ tpos → (entries.map Prod.fst).Nodup) →
      (∀ sn entries, (sn, entries) ∈ tpos → ∀ e ∈ entries,
        (viewTab wb sn e.1).isSome) →
      ∃ wb', finalizeAll tpos wb = .ok wb' ∧
        (∀ sn entries, (sn, entries) ∈ tpos → ∀ tn pos, (tn, pos) ∈ entries →
          ∀ tab, viewTab wb sn tn = some tab →
            viewTab wb' sn tn = some { tab with ref := pos.get_ref }) ∧
        (∀ sn tn, (∀ entries, (sn, entries) ∈ tpos → tn ∉ entries.map Prod.fst) →
          viewTab wb' sn tn = viewTab wb sn tn) := by
  intro tpos
  induction tpos with
  | nil =>
    intro wb _ _ _
    exact ⟨wb, rfl, by simp, fun _ _ _ => rfl⟩
  | cons p rest ih =>
    intro wb hnd hinner hview
    obtain ⟨sname, entries⟩ := p
    simp only [List.map_cons, List.nodup_cons] at hnd
    have hsnotin : sname ∉ rest.map Prod.fst := hnd.1
    obtain ⟨wb₁, hf1, hclaim1, hpres1⟩ :=
      finalizeSheet_spec entries wb (hinner sname entries (by simp))
        (hview sname entries (by simp))
    have hviewr : ∀ sn entries', (sn, entries') ∈ rest → ∀ e ∈ entries',
        (viewTab wb₁ sn e.1).isSome := by
      intro sn entries' hmem e he
      have hne : sn ≠ sname := by
        intro hx
        exact hsnotin (hx ▸ List.mem_map.mpr ⟨(sn, entries'), hmem, rfl⟩)
      rw [hpres1 sn e.1 (Or.inl hne)]
      exact hview sn entries' (by simp [hmem]) e he
    obtain ⟨wb', hfr, hclaimr, hpresr⟩ := ih wb₁ hnd.2
      (fun sn e hm => hinner sn e (by simp [hm])) hviewr
    refine ⟨wb', ?_, ?_, ?_⟩
    · unfold finalizeAll
      rw [hf1]
      exact hfr
    · intro sn entries' hmem tn pos hmem2 tab htab
      rcases List.mem_cons.mp hmem with hm | hm
      · have h1 : sn = sname := congrArg Prod.fst hm
        have h2 : entries' = entries := congrArg Prod.snd hm
        subst h1
        subst h2
        rw [hpresr sn tn ?side]
        · exact hclaim1 tn pos hmem2 tab htab
        case side =>
          intro entries'' hmem'' hx
          exact hsnotin (List.mem_map.mpr ⟨(sn, entries''), hmem'', rfl⟩)
      · have hne : sn ≠ sname := by
          intro hx
          exact hsnotin (hx ▸ List.mem_map.mpr ⟨(sn, entries'), hm, rfl⟩)
        refine hclaimr sn entries' hm tn pos hmem2 tab ?_
        rw [hpres1 sn tn (Or.inl hne)]
        exact htab
    · intro sn tn hc
      rw [hpresr sn tn (fun e hm => hc e (by simp [hm]))]
      by_cases hsn : sn = sname
      · subst hsn
        exact hpres1 sn tn (Or.inr (hc entries (by simp)))
      · exact hpres1 sn tn (Or.inl hsn)

theorem get_ref_eq {p : TablePosition} (hp : p.next_row = p.header_row + 1)
    (w : Nat) :
    (p.advance w).get_ref =
      p.first_col ++ natToDecStr p.header_row ++ ":" ++ p.last_col ++
        natToDecStr (p.header_row + max w 1) := by
  unfold TablePosition.get_ref TablePosition.advance
  simp only
  rw [hp]
  by_cases hw : w = 0
  · subst hw
    rw [if_neg (by omega)]
    have : p.header_row + max 0 1 = p.header_row + 1 := by omega
    rw [this]
  · rw [if_pos (by omega)]
    have : p.header_row + 1 + w - 1 = p.header_row + max w 1 := by omega
    rw [this]

theorem flatMap_congr_mem {α β : Type} {l : List α} {f g : α → List β}
    (h : ∀ a ∈ l, f a = g a) : l.flatMap f = l.flatMap g := by
  induction l with
  | nil => rfl
  | cons a t ih =>
    rw [List.flatMap_cons, List.flatMap_cons, h a (by simp),
      ih (fun a' ha' => h a' (by simp [ha']))]

theorem mem_collectStored {wb : Workbook} {o n : Date} {y m : Nat} {t : Txn}
    (hy : y ∈ spanYears o n) (hm : m ∈ spanMonths o n y)
    (ht : t ∈ storedOf wb y m) : t ∈ collectStored wb o n := by
  rw [collectStored_eq]
  rw [List.mem_flatMap]
  exact ⟨y, hy, List.mem_flatMap.mpr ⟨m, hm, ht⟩⟩

theorem collectStored_decomp {wb : Workbook} {o n : Date} {t : Txn}
    (ht : t ∈ collectStored wb o n) :
    ∃ y ∈ spanYears o n, ∃ m ∈ spanMonths o n y, t ∈ storedOf wb y m := by
  rw [collectStored_eq, List.mem_flatMap] at ht
  obtain ⟨y, hy, ht⟩ := ht
  rw [List.mem_flatMap] at ht
  obtain ⟨m, hm, ht⟩ := ht
  exact ⟨y, hy, m, hm, ht⟩

/-- The final reference string of a span table after the merge. -/
def finalRef (pos0 : TablePosition) (w : Nat) : String :=
  pos0.first_col ++ natToDecStr pos0.header_row ++ ":" ++ pos0.last_col ++
    natToDecStr (pos0.header_row + max w 1)

/-- The routed slice of the rewrite list for a span pair. -/
def routedSpan (s : List Txn) (y m : Nat) : List Txn :=
  routedTo s (natToDecStr y) (month_table_name (month_name m) (natToDecStr y))

/-- The full sorted rewrite list of a merge. -/
def mergeList (wb : Workbook) (df : List Txn) : List Txn :=
  mergedSorted df (collectStored wb (oldestDate df) (newestDate df))

/-- Master characterization of `update_xlbudget`: on a well-formed
workbook and a nonempty normalized dataframe the update succeeds, and
every month table in the span ends up holding exactly the slice of the
sorted deduplicated union routed to it, with its reference rewritten to
span those rows. -/
theorem update_master {wb : Workbook} {df : List Txn} (hne : df ≠ [])
    (hwf : spanWFb wb (oldestDate df) (newestDate df) = true)
    (hvm : validMonthsb df = true) :
    ∃ wbC wb',
      createYearSheets (spanYears (oldestDate df) (newestDate df)) wb = .ok wbC ∧
      update_xlbudget wb df = .ok wb' ∧
      (∀ k, (alistGet k wb.sheets).isSome →
        alistGet k wbC.sheets = alistGet k wb.sheets) ∧
      (∀ y ∈ spanYears (oldestDate df) (newestDate df),
        ∀ m ∈ spanMonths (oldestDate df) (newestDate df) y,
        ∃ tab0 pos0,
          monthTable? wbC y m = some tab0 ∧
          TablePosition.init? tab0.ref = some pos0 ∧
          tableWFb tab0 y m = true ∧
          storedRows tab0 = storedOf wb y m ∧
          monthTable? wb' y m = some
            { ref := finalRef pos0 (routedSpan (mergeList wb df) y m).length,
              rows := routedSpan (mergeList wb df) y m ++
                tab0.rows.drop (routedSpan (mergeList wb df) y m).length } ∧
          (∀ tabF, monthTable? wb' y m = some tabF →
            storedRows tabF = routedSpan (mergeList wb df) y m)) ∧
      (∀ sn tn,
        (∀ y ∈ spanYears (oldestDate df) (newestDate df),
          ∀ m ∈ spanMonths (oldestDate df) (newestDate df) y,
          ¬ (sn = natToDecStr y ∧
            tn = month_table_name (month_name m) (natToDecStr y))) →
        viewTab wb' sn tn = viewTab wbC sn tn) := by
  obtain ⟨hd, tl, hdf⟩ : ∃ hd tl, df = hd :: tl := by
    cases df with
    | nil => exact absurd rfl hne
    | cons hd tl => exact ⟨hd, tl, rfl⟩
  subst hdf
  set o := oldestDate (hd :: tl) with ho
  set n := newestDate (hd :: tl) with hn
  have hob := oldestDate_month_bound hne hvm
  have hnb := newestDate_month_bound hne hvm
  have hmb : ∀ {y m}, m ∈ spanMonths o n y → 1 ≤ m ∧ m ≤ 12 :=
    fun hm => spanMonths_bounds hob.1 hnb.2 hm
  obtain ⟨wbC, hcreate, hpres, hyears⟩ := createYearSheets_ok (spanYears o n) wb
  -- every span table exists in wbC, is well formed, and stores what wb stored
  have hinfo : ∀ y ∈ spanYears o n, ∃ sh,
      alistGet (natToDecStr y) wbC.sheets = some sh ∧
      ∀ m ∈ spanMonths o n y, ∃ tab,
        alistGet (month_table_name (month_name m) (natToDecStr y)) sh.tables
          = some tab ∧ tableWFb tab y m = true ∧
        storedRows tab = storedOf wb y m := by
    intro y hy
    obtain ⟨sh, hsh, hdisj⟩ := hyears y hy
    refine ⟨sh, hsh, ?_⟩
    intro m hm
    rcases hdisj with horig | ⟨hnone, hnew⟩
    · obtain ⟨tab, htab, hwft⟩ := spanWFb_elim hwf y hy m hm sh horig
      refine ⟨tab, htab, hwft, ?_⟩
      unfold storedOf monthTable?
      rw [horig]
      dsimp only
      rw [htab]
    · subst hnew
      have hmb' := hmb hm
      refine ⟨_, newYearSheet_table hmb', freshTable_wf (by unfold MONTH_TABLES_COL; omega) y m, ?_⟩
      rw [freshTable_stored (by unfold MONTH_TABLES_COL; omega)]
      unfold storedOf monthTable?
      rw [hnone]
  -- the positions phase succeeds and produces the canonical structure
  have hinitpos : initPositions wbC o n (spanYears o n) =
      .ok (initStruct wbC o n (spanYears o n)) := by
    apply initPositions_eq
    intro y hy
    obtain ⟨sh, hsh, hms⟩ := hinfo y hy
    refine ⟨sh, hsh, ?_⟩
    intro m hm
    obtain ⟨tab, htab, hwft, _⟩ := hms m hm
    obtain ⟨pos, hpos, _⟩ := tableWFb_elim hwft
    exact ⟨tab, pos, htab, hpos⟩
  -- the parsed position of each span table
  have hposOf : ∀ y ∈ spanYears o n, ∀ m ∈ spanMonths o n y,
      ∀ tab, monthTable? wbC y m = some tab →
      ∀ pos, TablePosition.init? tab.ref = some pos → posOf wbC y m = pos := by
    intro y hy m hm tab htab pos hpos
    unfold posOf
    rw [htab]
    dsimp only
    rw [hpos]
    rfl
  -- absorption succeeds and collects exactly the stored rows
  have habs : absorbAll wbC (initStruct wbC o n (spanYears o n)) =
      .ok (collectStored wb o n) := by
    have h1 : absorbAll wbC (initStruct wbC o n (spanYears o n)) =
        .ok ((spanYears o n).flatMap fun y =>
          (spanMonths o n y).flatMap fun m => storedOf wbC y m) := by
      apply absorbAll_eq
      intro y hy
      obtain ⟨sh, hsh, hms⟩ := hinfo y hy
      refine ⟨sh, hsh, ?_⟩
      intro m hm
      obtain ⟨tab, htab, hwft, _⟩ := hms m hm
      obtain ⟨pos, hpos, hwe, hwn, _⟩ := tableWFb_elim hwft
      have hmt : monthTable? wbC y m = some tab := by
        unfold monthTable?
        rw [hsh]
        dsimp only
        exact htab
      refine ⟨tab, htab, ?_⟩
      rw [hposOf y hy m hm tab hmt pos hpos]
      exact absorbTable_stored hpos hwe hwn
    rw [h1]
    congr 1
    rw [collectStored_eq]
    apply flatMap_congr_mem
    intro y hy
    apply flatMap_congr_mem
    intro m hm
    obtain ⟨sh, hsh, hms⟩ := hinfo y hy
    obtain ⟨tab, htab, _, hstored⟩ := hms m hm
    have : storedOf wbC y m = storedRows tab := by
      unfold storedOf monthTable?
      rw [hsh]
      dsimp only
      rw [htab]
    rw [this, hstored]
  -- routing keys of the rewrite list
  have hkey : ∀ t ∈ mergeList wb (hd :: tl), ∃ y ∈ spanYears o n,
      ∃ m ∈ spanMonths o n y,
      txnSheet t = natToDecStr y ∧
        txnTable t = month_table_name (month_name m) (natToDecStr y) ∧
        t.date.year = y ∧ t.date.month = m := by
    intro t ht
    unfold mergeList at ht
    rw [mem_mergedSorted] at ht
    rcases ht with ht | ht
    · have hb := validMonthsb_elim hvm t ht
      obtain ⟨hy, hm⟩ := txn_mem_span ht hb
      exact ⟨t.date.year, hy, t.date.month, hm, rfl, rfl, rfl, rfl⟩
    · obtain ⟨y, hy, m, hm, hmem⟩ := collectStored_decomp ht
      obtain ⟨sh, hsh, hms⟩ := hinfo y hy
      obtain ⟨tab, htab, hwft, hstored⟩ := hms m hm
      rw [← hstored] at hmem
      obtain ⟨pos, _, _, _, hplace⟩ := tableWFb_elim hwft
      obtain ⟨hpy, hpm⟩ := hplace t hmem
      refine ⟨y, hy, m, hm, ?_, ?_, hpy, hpm⟩
      · unfold txnSheet
        rw [hpy]
      · unfold txnTable txnSheet
        rw [hpy, hpm]
  -- hypotheses for the write phase
  have hview : ∀ t ∈ mergeList wb (hd :: tl), ∃ pos tab,
      viewPos (initStruct wbC o n (spanYears o n)) (txnSheet t) (txnTable t)
        = some pos ∧
      viewTab wbC (txnSheet t) (txnTable t) = some tab := by
    intro t ht
    obtain ⟨y, hy, m, hm, hts, htt, _, _⟩ := hkey t ht
    rw [hts, htt]
    obtain ⟨sh, hsh, hms⟩ := hinfo y hy
    obtain ⟨tab, htab, _, _⟩ := hms m hm
    refine ⟨posOf wbC y m, tab, ?_, ?_⟩
    · exact viewPos_initStruct (spanYears_nodup o n) hob.1 hnb.2 hy hm
    · unfold viewTab
      rw [hsh]
      dsimp only
      exact htab
  have hcursor : ∀ sn tn pos,
      viewPos (initStruct wbC o n (spanYears o n)) sn tn = some pos →
      pos.header_row + 1 ≤ pos.next_row := by
    intro sn tn pos hp
    obtain ⟨y, hy, m, hm, _, _, hposdef⟩ := viewPos_initStruct_inv hp
    subst hposdef
    obtain ⟨sh, hsh, hms⟩ := hinfo y hy
    obtain ⟨tab, htab, hwft, _⟩ := hms m hm
    obtain ⟨pp, hpp, _⟩ := tableWFb_elim hwft
    have hmt : monthTable? wbC y m = some tab := by
      unfold monthTable?
      rw [hsh]
      dsimp only
      exact htab
    rw [hposOf y hy m hm tab hmt pp hpp, init?_next_row hpp]
  obtain ⟨wb₂, tpos₂, hwrite, hweq⟩ :=
    writeAll_spec (mergeList wb (hd :: tl)) wbC
      (initStruct wbC o n (spanYears o n)) hview hcursor
  -- shape of the positions dictionary after the write phase
  obtain ⟨htp₂keys, htp₂inner⟩ := writeAll_keys hwrite
  have houter_nd : (tpos₂.map Prod.fst).Nodup := by
    rw [htp₂keys, initStruct_keys]
    exact (spanYears_nodup o n).map natToDecStr_injective
  have hinner_resolve : ∀ sn entries₂, (sn, entries₂) ∈ tpos₂ →
      ∃ y ∈ spanYears o n, sn = natToDecStr y ∧
        entries₂.map Prod.fst = (spanMonths o n y).map
          (fun m => month_table_name (month_name m) (natToDecStr y)) := by
    intro sn entries₂ hmem
    have hga : alistGet sn tpos₂ = some entries₂ :=
      alistGet_of_mem_nodup houter_nd hmem
    obtain ⟨e₀, he₀, hfst⟩ := htp₂inner sn entries₂ hga
    have hmem₀ := alistGet_mem he₀
    unfold initStruct at hmem₀
    obtain ⟨y, hy, heq⟩ := List.mem_map.mp hmem₀
    have h1 : natToDecStr y = sn := congrArg Prod.fst heq
    have h2 : ((spanMonths o n y).map fun m =>
        (month_table_name (month_name m) (natToDecStr y), posOf wbC y m)) = e₀ :=
      congrArg Prod.snd heq
    refine ⟨y, hy, h1.symm, ?_⟩
    rw [hfst, ← h2]
    simp
  have hinner_nd : ∀ sn entries₂, (sn, entries₂) ∈ tpos₂ →
      (entries₂.map Prod.fst).Nodup := by
    intro sn entries₂ hmem
    obtain ⟨y, hy, _, hkeys⟩ := hinner_resolve sn entries₂ hmem
    rw [hkeys]
    exact monthKeys_nodup (natToDecStr y) hob.1 hnb.2
  have hviews₂ : ∀ sn entries₂, (sn, entries₂) ∈ tpos₂ → ∀ e ∈ entries₂,
      (viewTab wb₂ sn e.1).isSome := by
    intro sn entries₂ hmem e he
    obtain ⟨y, hy, hsn, hkeys⟩ := hinner_resolve sn entries₂ hmem
    have : e.1 ∈ entries₂.map Prod.fst := List.mem_map.mpr ⟨e, he, rfl⟩
    rw [hkeys] at this
    obtain ⟨m, hm, htn⟩ := List.mem_map.mp this
    obtain ⟨sh, hsh, hms⟩ := hinfo y hy
    obtain ⟨tab, htab, _, _⟩ := hms m hm
    have hvp := @viewPos_initStruct wbC _ _ _ (spanYears_nodup o n) hob.1 hnb.2 _ _ hy hm
    have hvt : viewTab wbC (natToDecStr y)
        (month_table_name (month_name m) (natToDecStr y)) = some tab := by
      unfold viewTab
      rw [hsh]
      dsimp only
      exact htab
    have hres := (hweq (natToDecStr y)
      (month_table_name (month_name m) (natToDecStr y))).2.2.1 _ _ hvp hvt
    rw [hsn, ← htn]
    rw [hres]
    rfl
  obtain ⟨wb', hfin, hfclaim, hfpres⟩ :=
    finalizeAll_spec tpos₂ wb₂ houter_nd hinner_nd hviews₂
  -- the update equals the composed phases
  have hupdate : update_xlbudget wb (hd :: tl) = .ok wb' := by
    unfold update_xlbudget
    dsimp only
    rw [← ho, ← hn, hcreate]
    dsimp only
    rw [hinitpos]
    dsimp only
    rw [habs]
    dsimp only
    unfold mergeList mergedSorted at hwrite
    rw [hwrite]
    dsimp only
    exact hfin
  refine ⟨wbC, wb', hcreate, hupdate, hpres, ?_, ?_⟩
  · -- per-table characterization
    intro y hy m hm
    obtain ⟨sh, hsh, hms⟩ := hinfo y hy
    obtain ⟨tab0, htab0, hwft, hstored⟩ := hms m hm
    obtain ⟨pos0, hpos0, hwfe0, hwfn0, hplace0⟩ := tableWFb_elim hwft
    have hmt0 : monthTable? wbC y m = some tab0 := by
      unfold monthTable?
      rw [hsh]
      dsimp only
      exact htab0
    have hvt0 : viewTab wbC (natToDecStr y)
        (month_table_name (month_name m) (natToDecStr y)) = some tab0 := hmt0
    have hpof := hposOf y hy m hm tab0 hmt0 pos0 hpos0
    have hvp := @viewPos_initStruct wbC _ _ _ (spanYears_nodup o n) hob.1 hnb.2 _ _ hy hm
    rw [hpof] at hvp
    set routed := routedSpan (mergeList wb (hd :: tl)) y m with hrouted
    have hroutedTo : routedTo (mergeList wb (hd :: tl)) (natToDecStr y)
        (month_table_name (month_name m) (natToDecStr y)) = routed := rfl
    have hnr0 : pos0.next_row = pos0.header_row + 1 := init?_next_row hpos0
    -- the write phase result at this table
    have hvp₂ := (hweq (natToDecStr y)
      (month_table_name (month_name m) (natToDecStr y))).1 pos0 hvp
    have hvt₂ := (hweq (natToDecStr y)
      (month_table_name (month_name m) (natToDecStr y))).2.2.1 pos0 tab0 hvp hvt0
    rw [hroutedTo] at hvp₂ hvt₂
    have hidx0 : pos0.next_row - (pos0.header_row + 1) = 0 := by omega
    rw [hidx0] at hvt₂
    have hrows₂ : writeSeq tab0.rows 0 routed = routed ++ tab0.rows.drop routed.length := by
      rw [writeSeq_spec (by omega)]
      simp
    rw [hrows₂] at hvt₂
    -- the finalize phase result at this table
    have hentry : ∃ entries₂, (natToDecStr y, entries₂) ∈ tpos₂ ∧
        (month_table_name (month_name m) (natToDecStr y),
          pos0.advance routed.length) ∈ entries₂ := by
      unfold viewPos at hvp₂
      cases hga : alistGet (natToDecStr y) tpos₂ with
      | none => rw [hga] at hvp₂; exact absurd hvp₂ (by simp)
      | some entries₂ =>
        rw [hga] at hvp₂
        dsimp only at hvp₂
        exact ⟨entries₂, alistGet_mem hga, alistGet_mem hvp₂⟩
    obtain ⟨entries₂, hmem₂, hmem₂'⟩ := hentry
    have hvt' := hfclaim (natToDecStr y) entries₂ hmem₂
      (month_table_name (month_name m) (natToDecStr y))
      (pos0.advance routed.length) hmem₂'
      { tab0 with rows := routed ++ tab0.rows.drop routed.length } hvt₂
    have hrefF : (pos0.advance routed.length).get_ref = finalRef pos0 routed.length := by
      rw [get_ref_eq hnr0]
      rfl
    rw [hrefF] at hvt'
    -- the final table value
    have hfinalTab : monthTable? wb' y m = some
        { ref := finalRef pos0 routed.length,
          rows := routed ++ tab0.rows.drop routed.length } := hvt'
    refine ⟨tab0, pos0, hmt0, hpos0, hwft, hstored, hfinalTab, ?_⟩
    intro tabF htabF
    rw [hfinalTab] at htabF
    simp only [Option.some_inj] at htabF
    rw [← htabF]
    -- stored rows of the final table
    obtain ⟨hcs1, hcs2⟩ := init?_colStr hpos0
    unfold storedRows
    rw [show ({ ref := finalRef pos0 routed.length, rows := routed ++ tab0.rows.drop routed.length } : MonthTable).ref = finalRef pos0 routed.length from rfl]
    unfold finalRef
    rw [init?_of_format hcs1 hcs2 pos0.header_row (pos0.header_row + max routed.length 1)]
    dsimp only
    have hlen : pos0.header_row + max routed.length 1 - pos0.header_row =
        max routed.length 1 := by omega
    rw [hlen]
    by_cases hw : routed.length = 0
    · have hrnil : routed = [] := List.length_eq_zero.mp hw
      have htab0nil : tab0.rows = [] := by
        by_contra hne0
        obtain ⟨h1, h2⟩ := hwfn0 hne0
        have hsne : storedRows tab0 ≠ [] := by
          unfold storedRows
          rw [hpos0]
          dsimp only
          intro hx
          rw [List.take_eq_nil_iff] at hx
          rcases hx with hx | hx
          · omega
          · exact hne0 hx
        obtain ⟨t0, ht0⟩ := List.exists_mem_of_ne_nil (storedRows tab0) hsne
        obtain ⟨hty, htm⟩ := hplace0 t0 ht0
        have htcoll : t0 ∈ collectStored wb o n := by
          apply mem_collectStored hy hm
          rw [← hstored]
          exact ht0
        have htmerge : t0 ∈ mergeList wb (hd :: tl) := by
          unfold mergeList
          rw [mem_mergedSorted]
          exact Or.inr htcoll
        have htrouted : t0 ∈ routed := by
          rw [hrouted]
          unfold routedSpan routedTo
          rw [List.mem_filter]
          refine ⟨htmerge, ?_⟩
          simp only [decide_eq_true_eq]
          constructor
          · unfold txnSheet
            rw [hty]
          · unfold txnTable txnSheet
            rw [hty, htm]
        rw [hrnil] at htrouted
        simp at htrouted
      rw [hrnil, htab0nil]
      simp [hw]
    · have hmax : max routed.length 1 = routed.length := by omega
      rw [hmax]
      rw [List.take_left' rfl]
  · -- tables outside the span are untouched after the create phase
    intro sn tn hnospan
    have hnone : viewPos (initStruct wbC o n (spanYears o n)) sn tn = none := by
      cases hvp : viewPos (initStruct wbC o n (spanYears o n)) sn tn with
      | none => rfl
      | some pos =>
        obtain ⟨y, hy, m, hm, h1, h2, _⟩ := viewPos_initStruct_inv hvp
        exact absurd ⟨h1, h2⟩ (hnospan y hy m hm)
    have h2 := (hweq sn tn).2.1 hnone
    have h4 := (hweq sn tn).2.2.2 hnone
    rw [← h4]
    apply hfpres
    intro entries₂ hmem₂ htn
    obtain ⟨y, hy, hsn, hkeys⟩ := hinner_resolve sn entries₂ hmem₂
    rw [hkeys] at htn
    obtain ⟨m, hm, htn'⟩ := List.mem_map.mp htn
    exact hnospan y hy m hm ⟨hsn, htn'.symm⟩


/-!
Derived facts about the rewrite list and the merged workbook.
-/

theorem mergeList_key {wb : Workbook} {df : List Txn}
    (hwf : spanWFb wb (oldestDate df) (newestDate df) = true)
    (hvm : validMonthsb df = true) :
    ∀ t ∈ mergeList wb df, ∃ y ∈ spanYears (oldestDate df) (newestDate df),
      ∃ m ∈ spanMonths (oldestDate df) (newestDate df) y,
      txnSheet t = natToDecStr y ∧
        txnTable t = month_table_name (month_name m) (natToDecStr y) ∧
        t.date.year = y ∧ t.date.month = m := by
  intro t ht
  unfold mergeList at ht
  rw [mem_mergedSorted] at ht
  rcases ht with ht | ht
  · have hb := validMonthsb_elim hvm t ht
    obtain ⟨hy, hm⟩ := txn_mem_span ht hb
    exact ⟨t.date.year, hy, t.date.month, hm, rfl, rfl, rfl, rfl⟩
  · obtain ⟨y, hy, m, hm, hmem⟩ := collectStored_decomp ht
    unfold storedOf at hmem
    cases hmt : monthTable? wb y m with
    | none => rw [hmt] at hmem; simp at hmem
    | some tab =>
      rw [hmt] at hmem
      unfold monthTable? at hmt
      cases hsh : alistGet (natToDecStr y) wb.sheets with
      | none => rw [hsh] at hmt; exact absurd hmt (by simp)
      | some sh =>
        rw [hsh] at hmt
        dsimp only at hmt
        obtain ⟨tab', htab', hwft⟩ := spanWFb_elim hwf y hy m hm sh hsh
        rw [htab'] at hmt
        simp only [Option.some_inj] at hmt
        subst hmt
        obtain ⟨pos, _, _, _, hplace⟩ := tableWFb_elim hwft
        obtain ⟨hpy, hpm⟩ := hplace t hmem
        refine ⟨y, hy, m, hm, ?_, ?_, hpy, hpm⟩
        · unfold txnSheet
          rw [hpy]
        · unfold txnTable txnSheet
          rw [hpy, hpm]

/-- The span pairs, years ascending and months ascending within. -/
def spanPairs (o n : Date) : List (Nat × Nat) :=
  (spanYears o n).flatMap fun y => (spanMonths o n y).map fun m => (y, m)

theorem nodup_pair_flatMap (f : Nat → List Nat) :
    ∀ ys : List Nat, ys.Nodup → (∀ y, (f y).Nodup) →
    (ys.flatMap fun y => (f y).map fun m => (y, m)).Nodup := by
  intro ys
  induction ys with
  | nil => intro _ _; simp
  | cons y ys ih =>
    intro hys hf
    rw [List.flatMap_cons]
    apply List.Nodup.append
    · exact (hf y).map (fun a b h => by simpa using congrArg Prod.snd h)
    · exact ih (List.nodup_cons.mp hys).2 hf
    · intro p hp hq
      obtain ⟨m, hm, rfl⟩ := List.mem_map.mp hp
      obtain ⟨y', hy', hq'⟩ := List.mem_flatMap.mp hq
      obtain ⟨m', hm', heq⟩ := List.mem_map.mp hq'
      have h1 : y' = y := congrArg Prod.fst heq
      exact (List.nodup_cons.mp hys).1 (h1 ▸ hy')

theorem spanPairs_nodup (o n : Date) : (spanPairs o n).Nodup :=
  nodup_pair_flatMap _ _ (spanYears_nodup o n) (fun y => spanMonths_nodup o n y)

theorem flatMap_pairs {α : Type} (g : Nat → Nat → List α) (f : Nat → List Nat) :
    ∀ ys : List Nat,
      ((ys.flatMap fun y => (f y).map fun m => (y, m)).flatMap fun p => g p.1 p.2) =
        ys.flatMap fun y => (f y).flatMap fun m => g y m := by
  intro ys
  induction ys with
  | nil => rfl
  | cons y ys ih =>
    simp only [List.flatMap_cons, List.flatMap_append, ih, List.flatMap_map]

theorem mem_spanPairs {o n : Date} {p : Nat × Nat} :
    p ∈ spanPairs o n ↔ p.1 ∈ spanYears o n ∧ p.2 ∈ spanMonths o n p.1 := by
  unfold spanPairs
  constructor
  · intro h
    obtain ⟨y, hy, h⟩ := List.mem_flatMap.mp h
    obtain ⟨m, hm, rfl⟩ := List.mem_map.mp h
    exact ⟨hy, hm⟩
  · rintro ⟨h1, h2⟩
    exact List.mem_flatMap.mpr ⟨p.1, h1, List.mem_map.mpr ⟨p.2, h2, rfl⟩⟩

theorem routedSpan_eq_keyFilter (s : List Txn) (y m : Nat) :
    routedSpan s y m = s.filter (fun t => decide (txnKey t = spanKey y m)) := by
  unfold routedSpan routedTo
  apply List.filter_congr
  intro t _
  simp [txnKey, spanKey, Prod.ext_iff]

/-- The month tables of the span, after the update, together hold
exactly the rewrite list (as a multiset). -/
theorem update_span_perm {wb : Workbook} {df : List Txn} (hne : df ≠ [])
    (hwf : spanWFb wb (oldestDate df) (newestDate df) = true)
    (hvm : validMonthsb df = true) :
    ∃ wb', update_xlbudget wb df = .ok wb' ∧
      (collectStored wb' (oldestDate df) (newestDate df)).Perm (mergeList wb df) := by
  obtain ⟨wbC, wb', hcreate, hupd, hpres, hspan, hother⟩ := update_master hne hwf hvm
  refine ⟨wb', hupd, ?_⟩
  set o := oldestDate df with ho
  set n := newestDate df with hn
  set s := mergeList wb df with hs
  have hob := oldestDate_month_bound hne hvm
  have hnb := newestDate_month_bound hne hvm
  have hmb : ∀ {y m}, m ∈ spanMonths o n y → 1 ≤ m ∧ m ≤ 12 :=
    fun hm => spanMonths_bounds hob.1 hnb.2 hm
  have hstored : ∀ y ∈ spanYears o n, ∀ m ∈ spanMonths o n y,
      storedOf wb' y m = routedSpan s y m := by
    intro y hy m hm
    obtain ⟨tab0, pos0, _, _, _, _, hfin, hchar⟩ := hspan y hy m hm
    unfold storedOf
    rw [hfin]
    exact hchar _ hfin
  have hA : collectStored wb' o n =
      (spanPairs o n).flatMap fun p => routedSpan s p.1 p.2 := by
    rw [collectStored_eq]
    unfold spanPairs
    rw [flatMap_pairs]
    apply flatMap_congr_mem
    intro y hy
    apply flatMap_congr_mem
    intro m hm
    exact hstored y hy m hm
  rw [hA]
  have hB : ((spanPairs o n).flatMap fun p => routedSpan s p.1 p.2) =
      (((spanPairs o n).map fun p => spanKey p.1 p.2).flatMap
        fun k => s.filter fun t => decide (txnKey t = k)) := by
    rw [List.flatMap_map]
    apply flatMap_congr_mem
    intro p _
    exact routedSpan_eq_keyFilter s p.1 p.2
  rw [hB]
  apply join_filter_perm
  · apply List.Nodup.map_on _ (spanPairs_nodup o n)
    intro p hp q hq hpq
    have hpb := hmb (mem_spanPairs.mp hp).2
    have hqb := hmb (mem_spanPairs.mp hq).2
    obtain ⟨h1, h2⟩ := spanKey_inj hpb hqb hpq
    exact Prod.ext h1 h2
  · intro t ht
    obtain ⟨y, hy, m, hm, h1, h2, _, _⟩ := mergeList_key hwf hvm t ht
    apply List.mem_map.mpr
    refine ⟨(y, m), mem_spanPairs.mpr ⟨hy, hm⟩, ?_⟩
    show spanKey y m = txnKey t
    unfold spanKey txnKey
    rw [h1, h2]

theorem finalRef_parse {pos0 : TablePosition} (h1 : ColStr pos0.first_col)
    (h2 : ColStr pos0.last_col) (w : Nat) :
    TablePosition.init? (finalRef pos0 w) =
      some { first_col := pos0.first_col, header_row := pos0.header_row,
             next_row := pos0.header_row + 1,
             first_col_ind := column_index_from_string pos0.first_col,
             last_col := pos0.last_col,
             initial_last_row := pos0.header_row + max w 1 } := by
  unfold finalRef
  exact init?_of_format h1 h2 _ _

theorem monthTable?_elim {wb : Workbook} {y m : Nat} {tab : MonthTable}
    (h : monthTable? wb y m = some tab) :
    ∃ sh, alistGet (natToDecStr y) wb.sheets = some sh ∧
      alistGet (month_table_name (month_name m) (natToDecStr y)) sh.tables = some tab := by
  unfold monthTable? at h
  cases hsh : alistGet (natToDecStr y) wb.sheets with
  | none => rw [hsh] at h; exact absurd h (by simp)
  | some sh =>
    rw [hsh] at h
    exact ⟨sh, rfl, h⟩

/-- The workbook an update produces is itself span well formed for the
same dataframe: the rewritten references and contents parse back and
place correctly. -/
theorem update_output_wf {wb : Workbook} {df : List Txn} (hne : df ≠ [])
    (hwf : spanWFb wb (oldestDate df) (newestDate df) = true)
    (hvm : validMonthsb df = true) {wb' : Workbook}
    (hupd : update_xlbudget wb df = .ok wb') :
    spanWFb wb' (oldestDate df) (newestDate df) = true := by
  obtain ⟨wbC, wb'', hcreate, hupd', hpres, hspan, hother⟩ := update_master hne hwf hvm
  rw [hupd] at hupd'
  have hww : wb' = wb'' := Except.ok.inj hupd'
  subst hww
  set o := oldestDate df with ho
  set n := newestDate df with hn
  set s := mergeList wb df with hs
  have hob := oldestDate_month_bound hne hvm
  have hnb := newestDate_month_bound hne hvm
  have hmb : ∀ {y m}, m ∈ spanMonths o n y → 1 ≤ m ∧ m ≤ 12 :=
    fun hm => spanMonths_bounds hob.1 hnb.2 hm
  unfold spanWFb
  rw [List.all_eq_true]
  intro y hy
  rw [List.all_eq_true]
  intro m hm
  obtain ⟨tab0, pos0, hmt0, hpos0, hwft, hst0, hfin, hchar⟩ := hspan y hy m hm
  obtain ⟨sh, hsh, htab⟩ := monthTable?_elim hfin
  rw [hsh]
  dsimp only
  rw [htab]
  dsimp only
  set routed := routedSpan s y m with hr
  set tabF : MonthTable :=
    { ref := finalRef pos0 routed.length, rows := routed ++ tab0.rows.drop routed.length }
    with htabF
  obtain ⟨hcs1, hcs2⟩ := init?_colStr hpos0
  unfold tableWFb
  rw [show tabF.ref = finalRef pos0 routed.length from rfl, finalRef_parse hcs1 hcs2]
  dsimp only
  rw [Bool.and_eq_true]
  constructor
  · by_cases hre : routed = []
    · rw [hre]
      simp only [List.nil_append, List.length_nil, List.drop_zero, Nat.zero_max]
      cases htr : tab0.rows with
      | nil => simp
      | cons a l =>
        simp only [List.isEmpty_cons, Bool.false_eq_true, if_false, List.length_cons,
          Bool.and_eq_true, decide_eq_true_eq]
        omega
    · cases hx : routed with
      | nil => exact absurd hx hre
      | cons a rl =>
        simp only [hx, List.cons_append, List.isEmpty_cons, Bool.false_eq_true, if_false,
          List.length_cons, List.length_append, Bool.and_eq_true, decide_eq_true_eq]
        omega
  · rw [hchar tabF hfin]
    rw [List.all_eq_true]
    intro t ht
    rw [hr] at ht
    unfold routedSpan routedTo at ht
    rw [List.mem_filter] at ht
    obtain ⟨hts, hkey⟩ := ht
    rw [decide_eq_true_eq] at hkey
    obtain ⟨y', hy', m', hm', e1, e2, ey, em⟩ := mergeList_key hwf hvm t hts
    have hyy : y' = y := natToDecStr_inj (e1.symm.trans hkey.1)
    subst hyy
    have hmm : m' = m :=
      month_name_inj (hmb hm') (hmb hm)
        (month_table_name_inj_month (e2.symm.trans hkey.2))
    rw [Bool.and_eq_true]
    constructor
    · simp only [decide_eq_true_eq]
      rw [ey]
    · simp only [decide_eq_true_eq]
      rw [em, hmm]

theorem spanMonths_ne_nil {o n : Date} {y : Nat} (_hy : y ∈ spanYears o n)
    (hle : dateLe o n = true) (ho1 : 1 ≤ o.month) (ho2 : o.month ≤ 12)
    (hn1 : 1 ≤ n.month) (hn2 : n.month ≤ 12) :
    ∃ m, m ∈ spanMonths o n y := by
  rw [dateLe_iff] at hle
  refine ⟨if y = o.year then o.month else 1, ?_⟩
  rw [mem_spanMonths]
  split_ifs <;> omega

/-- Updating twice with the same dataframe gives the same month tables
as updating once: the second pass rewrites each span table with the
same rows and the same reference, and touches nothing else. -/
theorem update_idem {wb : Workbook} {df : List Txn} (hne : df ≠ [])
    (hwf : spanWFb wb (oldestDate df) (newestDate df) = true)
    (hvm : validMonthsb df = true) :
    ∃ wb' wb'', update_xlbudget wb df = .ok wb' ∧ update_xlbudget wb' df = .ok wb'' ∧
      ∀ y m, 1 ≤ m → m ≤ 12 → monthTable? wb'' y m = monthTable? wb' y m := by
  obtain ⟨wbC, wb', hcreate, hupd, hpres, hspan, hother⟩ := update_master hne hwf hvm
  have hwf' := update_output_wf hne hwf hvm hupd
  obtain ⟨wbC₂, wb'', hcreate₂, hupd₂, hpres₂, hspan₂, hother₂⟩ := update_master hne hwf' hvm
  refine ⟨wb', wb'', hupd, hupd₂, ?_⟩
  set o := oldestDate df with ho
  set n := newestDate df with hn
  have hob := oldestDate_month_bound hne hvm
  have hnb := newestDate_month_bound hne hvm
  have hmb : ∀ {y m}, m ∈ spanMonths o n y → 1 ≤ m ∧ m ≤ 12 :=
    fun hm => spanMonths_bounds hob.1 hnb.2 hm
  have hperm : (collectStored wb' o n).Perm (mergeList wb df) := by
    obtain ⟨wbX, hupdX, hpermX⟩ := update_span_perm hne hwf hvm
    rw [hupd] at hupdX
    rw [Except.ok.inj hupdX]
    exact hpermX
  have hs2 : mergeList wb' df = mergeList wb df := by
    apply mergedSorted_eq_of_same_mem
    intro x
    have h1 : x ∈ collectStored wb' o n ↔ x ∈ mergeList wb df := hperm.mem_iff
    have h2 : x ∈ mergeList wb df ↔ x ∈ df ∨ x ∈ collectStored wb o n := mem_mergedSorted
    constructor
    · rintro (hx | hx)
      · exact Or.inl hx
      · exact h2.mp (h1.mp hx)
    · rintro (hx | hx)
      · exact Or.inl hx
      · exact Or.inr (h1.mpr (h2.mpr (Or.inr hx)))
  have hpresent : ∀ y ∈ spanYears o n, (alistGet (natToDecStr y) wb'.sheets).isSome := by
    intro y hy
    obtain ⟨m0, hm0⟩ := spanMonths_ne_nil hy (oldest_le_newest hne) hob.1 hob.2 hnb.1 hnb.2
    obtain ⟨tab0, pos0, _, _, _, _, hfin, _⟩ := hspan y hy m0 hm0
    obtain ⟨sh, hsh, _⟩ := monthTable?_elim hfin
    rw [hsh]
    rfl
  have hCC : wbC₂ = wb' := by
    have hnoop := createYearSheets_noop hpresent
    rw [hnoop] at hcreate₂
    exact (Except.ok.inj hcreate₂).symm
  rw [hCC] at hspan₂ hother₂
  intro y m hm1 hm2
  have hgen : ¬ (y ∈ spanYears o n ∧ m ∈ spanMonths o n y) →
      monthTable? wb'' y m = monthTable? wb' y m := by
    intro hns
    have hnospan : ∀ y' ∈ spanYears o n, ∀ m' ∈ spanMonths o n y',
        ¬ (natToDecStr y = natToDecStr y' ∧
          month_table_name (month_name m) (natToDecStr y) =
            month_table_name (month_name m') (natToDecStr y')) := by
      intro y' hy' m' hm' he
      obtain ⟨e1, e2⟩ := he
      have hyy : y = y' := natToDecStr_inj e1
      rw [← hyy] at hy' hm' e2
      have hmm2 : m = m' := month_name_inj ⟨hm1, hm2⟩ (hmb hm')
        (month_table_name_inj_month e2)
      rw [← hmm2] at hm'
      exact hns ⟨hy', hm'⟩
    have hv := hother₂ (natToDecStr y)
      (month_table_name (month_name m) (natToDecStr y)) hnospan
    rw [monthTable?_viewTab]
    exact hv
  by_cases hy : y ∈ spanYears o n
  · by_cases hmm : m ∈ spanMonths o n y
    · obtain ⟨tab0, pos0, hmt0, hpos0, hwft, hst0, hfin, hchar⟩ := hspan y hy m hmm
      obtain ⟨tab0₂, pos0₂, hmt0₂, hpos0₂, hwft₂, hst0₂, hfin₂, hchar₂⟩ := hspan₂ y hy m hmm
      rw [hfin] at hmt0₂
      have htt := (Option.some_inj.mp hmt0₂).symm
      subst htt
      obtain ⟨hcs1, hcs2⟩ := init?_colStr hpos0
      rw [show ({ ref := finalRef pos0 (routedSpan (mergeList wb df) y m).length, rows := routedSpan (mergeList wb df) y m ++ tab0.rows.drop (routedSpan (mergeList wb df) y m).length } : MonthTable).ref = finalRef pos0 (routedSpan (mergeList wb df) y m).length from rfl, finalRef_parse hcs1 hcs2] at hpos0₂
      have hP := (Option.some_inj.mp hpos0₂).symm
      subst hP
      rw [hfin₂, hfin, hs2]
      dsimp only
      rw [List.drop_left]
      rfl
    · exact hgen (fun hx => hmm hx.2)
  · exact hgen (fun hx => hy hx.1)

/-!
A small regular-expression engine (Brzozowski derivatives), embedding
the fragment of Python `re` used by the ignore patterns of
`inputformat.py`: literals, the dot, concatenation, alternation, star
and the start anchor.  `df_drop_ignores` joins the patterns with `|`
and tests them with `Series.str.contains`, which uses `re.search`:
an unanchored pattern may match at any position, while a pattern
anchored with `^` only matches at the start of the string.
-/

inductive Regex : Type
  | emp : Regex
  | eps : Regex
  | any : Regex
  | lit : Char → Regex
  | cat : Regex → Regex → Regex
  | alt : Regex → Regex → Regex
  | star : Regex → Regex
deriving DecidableEq, Repr

def nullable : Regex → Bool
  | .emp => false
  | .eps => true
  | .any => false
  | .lit _ => false
  | .cat a b => nullable a && nullable b
  | .alt a b => nullable a || nullable b
  | .star _ => true

def rderiv : Regex → Char → Regex
  | .emp, _ => .emp
  | .eps, _ => .emp
  | .any, _ => .eps
  | .lit c, x => if x = c then .eps else .emp
  | .cat a b, x =>
    if nullable a then .alt (.cat (rderiv a x) b) (rderiv b x) else .cat (rderiv a x) b
  | .alt a b, x => .alt (rderiv a x) (rderiv b x)
  | .star r, x => .cat (rderiv r x) (.star r)

/-- Some prefix of the character list matches the expression. -/
def matchHere : Regex → List Char → Bool
  | r, [] => nullable r
  | r, c :: t => nullable r || matchHere (rderiv r c) t

/-- Some substring starting at this position or later matches. -/
def scanHere : Regex → List Char → Bool
  | r, [] => nullable r
  | r, c :: t => nullable r || matchHere (rderiv r c) t || scanHere r t

/-- A Python pattern: a regex, possibly anchored at the start with `^`. -/
structure PyPat where
  anchored : Bool
  re : Regex
deriving DecidableEq, Repr

/-- `re.search(p, s)` on one pattern. -/
def reSearch (p : PyPat) (s : List Char) : Bool :=
  if p.anchored then matchHere p.re s else scanHere p.re s

/-- `re.search` of the alternation of the patterns: at each start
position every alternative is tried, but anchored alternatives only
fire at the true start of the string. -/
def searchJoinAux (ps : List PyPat) : List Char → Bool → Bool
  | [], atStart =>
    ps.any fun p => (!p.anchored || atStart) && matchHere p.re []
  | c :: t, atStart =>
    (ps.any fun p => (!p.anchored || atStart) && matchHere p.re (c :: t)) ||
      searchJoinAux ps t false

/-- `re.search("|".join(ps), s)`.  The join of no patterns is the empty
pattern, which matches everywhere. -/
def searchJoin (ps : List PyPat) (s : String) : Bool :=
  match ps with
  | [] => true
  | _ => searchJoinAux ps s.data true

theorem any_or_distrib {α : Type} (l : List α) (f g : α → Bool) :
    (l.any fun x => f x || g x) = (l.any f || l.any g) := by
  induction l with
  | nil => rfl
  | cons a t ih =>
    simp only [List.any_cons, ih]
    cases f a <;> cases g a <;> cases t.any f <;> cases t.any g <;> rfl

theorem list_any_congr {α : Type} {l : List α} {f g : α → Bool}
    (h : ∀ a ∈ l, f a = g a) : l.any f = l.any g := by
  induction l with
  | nil => rfl
  | cons a t ih =>
    simp only [List.any_cons, h a (by simp), ih fun x hx => h x (by simp [hx])]

theorem matchHere_cons (r : Regex) (c : Char) (t : List Char) :
    matchHere r (c :: t) = (nullable r || matchHere (rderiv r c) t) := rfl

theorem scanHere_cons (r : Regex) (c : Char) (t : List Char) :
    scanHere r (c :: t) = (nullable r || matchHere (rderiv r c) t || scanHere r t) := rfl

theorem searchJoinAux_false (ps : List PyPat) :
    ∀ s : List Char, searchJoinAux ps s false =
      ps.any fun p => !p.anchored && scanHere p.re s := by
  intro s
  induction s with
  | nil =>
    unfold searchJoinAux
    apply list_any_congr
    intro p _
    cases p.anchored <;> rfl
  | cons c t ih =>
    unfold searchJoinAux
    rw [ih]
    have h1 : (ps.any fun p => (!p.anchored || false) && matchHere p.re (c :: t)) =
        ps.any fun p => !p.anchored && matchHere p.re (c :: t) := by
      apply list_any_congr
      intro p _
      cases p.anchored <;> rfl
    rw [h1, ← any_or_distrib]
    apply list_any_congr
    intro p _
    rw [scanHere_cons, matchHere_cons]
    cases p.anchored <;> cases nullable p.re <;>
      cases matchHere (rderiv p.re c) t <;> cases scanHere p.re t <;> rfl

/-- The alternation join searches like the disjunction of the
individual searches. -/
theorem searchJoinAux_true (ps : List PyPat) (s : List Char) :
    searchJoinAux ps s true = ps.any fun p => reSearch p s := by
  cases s with
  | nil =>
    unfold searchJoinAux
    apply list_any_congr
    intro p _
    unfold reSearch
    cases hp : p.anchored <;> simp [matchHere, scanHere]
  | cons c t =>
    unfold searchJoinAux
    rw [searchJoinAux_false]
    have h1 : (ps.any fun p => (!p.anchored || true) && matchHere p.re (c :: t)) =
        ps.any fun p => matchHere p.re (c :: t) := by
      apply list_any_congr
      intro p _
      cases p.anchored <;> rfl
    rw [h1, ← any_or_distrib]
    apply list_any_congr
    intro p _
    unfold reSearch
    rw [scanHere_cons, matchHere_cons]
    cases p.anchored <;> cases nullable p.re <;>
      cases matchHere (rderiv p.re c) t <;> cases scanHere p.re t <;> rfl

/-!
The normalization pipeline of `inputformat.parse_input`, from the
point where the raw frame has been read and post-processed: coerce the
date column (`errors="coerce"` turns unparseable dates into `NaT`),
drop all-`na` rows, sort by all columns ascending (`NaN` last), strip
descriptions, and drop ignored transactions.  A cell is an `Option`:
`none` is `NaT`/`NaN`.
-/

/-- The date cell of a raw row: empty, parseable, or malformed. -/
inductive DCell : Type
  | na : DCell
  | parseable : Date → DCell
  | malformed : DCell
deriving DecidableEq, Repr

/-- A row of the post-processed raw frame: date cell, description,
amount (in cents). -/
structure RawRow where
  dateCell : DCell
  desc : Option String
  amount : Option Int
deriving DecidableEq, Repr

/-- A row of the normalized frame. -/
structure PRow where
  date : Option Date
  desc : Option String
  amount : Option Int
deriving DecidableEq, Repr

/-- `pd.to_datetime(..., errors="coerce")` on one cell: a malformed
date becomes `NaT`, not an error. -/
def to_datetime_coerce : DCell → Option Date
  | .na => none
  | .parseable d => some d
  | .malformed => none

def coerceRow (r : RawRow) : PRow :=
  { date := to_datetime_coerce r.dateCell, desc := r.desc, amount := r.amount }

/-- `df.isna().all(axis=1)` for one row. -/
def prowIsNa (r : PRow) : Bool := r.date.isNone && r.desc.isNone && r.amount.isNone

/-- `df_drop_na`: drop the rows whose every field is `na`, if any. -/
def df_drop_na (rows : List PRow) : List PRow :=
  let nas := rows.filter prowIsNa
  if nas.isEmpty then rows else rows.filter fun r => !(prowIsNa r)

/-- Column-wise less-than with `na` sorted last. -/
def optLtBy {α : Type} (ltb : α → α → Bool) : Option α → Option α → Bool
  | some x, some y => ltb x y
  | some _, none => true
  | none, _ => false

def intLt (a b : Int) : Bool := decide (a < b)

/-- `sort_values(by=[Date, Description, Amount], ascending=True)`:
lexicographic over the three columns, `na` last in each. -/
def prowLe (a b : PRow) : Bool :=
  optLtBy dateLt a.date b.date ||
    (decide (a.date = b.date) &&
      (optLtBy strLt a.desc b.desc ||
        (decide (a.desc = b.desc) &&
          (optLtBy intLt a.amount b.amount || decide (a.amount = b.amount)))))

def PRowLE (a b : PRow) : Prop := prowLe a b = true

instance : DecidableRel PRowLE :=
  fun a b => inferInstanceAs (Decidable (prowLe a b = true))

/-- Python `str.strip()`. -/
def stripStr (s : String) : String :=
  ⟨((s.data.dropWhile Char.isWhitespace).reverse.dropWhile Char.isWhitespace).reverse⟩

/-- `df["Description"].str.strip()` on one row. -/
def stripRow (r : PRow) : PRow := { r with desc := r.desc.map stripStr }

def descStr (r : PRow) : String := r.desc.getD ""

/-- `df_drop_ignores`: boolean-mask the descriptions with the joined
pattern; indexing a frame by a mask containing `NA` raises. -/
def df_drop_ignores (rows : List PRow) (ps : List PyPat) : Except String (List PRow) :=
  if rows.any fun r => r.desc.isNone then
    .error "ValueError: cannot mask with NA"
  else
    let ignored := rows.filter fun r => searchJoin ps (descStr r)
    if ignored.isEmpty then .ok rows
    else .ok (rows.filter fun r => !(searchJoin ps (descStr r)))

/-- The normalization stages of `parse_input` after reading and
post-processing: coerce dates, drop all-`na` rows, sort, strip
descriptions, drop ignored transactions.  (Column reordering and
renaming are identities here, and the trailing duplicate check only
warns.) -/
def parse_input (rows : List RawRow) (ps : List PyPat) : Except String (List PRow) :=
  let coerced := rows.map coerceRow
  let kept := df_drop_na coerced
  let sorted := List.insertionSort PRowLE kept
  let stripped := sorted.map stripRow
  df_drop_ignores stripped ps

/-- The output of normalization, as a plain filter chain (order
forgotten). -/
def parseSpecList (rows : List RawRow) (ps : List PyPat) : List PRow :=
  (((rows.map coerceRow).filter fun r => !(prowIsNa r)).map stripRow).filter
    fun r => !(searchJoin ps (descStr r))

theorem filter_not_of_none {α : Type} (l : List α) (p : α → Bool)
    (h : (l.filter p).isEmpty = true) : l.filter (fun a => !(p a)) = l := by
  rw [List.isEmpty_iff, List.filter_eq_nil_iff] at h
  apply List.filter_eq_self.mpr
  intro a ha
  have := h a ha
  cases hx : p a with
  | false => rfl
  | true => exact absurd hx this

theorem df_drop_na_eq (rows : List PRow) :
    df_drop_na rows = rows.filter fun r => !(prowIsNa r) := by
  unfold df_drop_na
  by_cases h : (rows.filter prowIsNa).isEmpty
  · rw [if_pos h, filter_not_of_none rows prowIsNa h]
  · rw [if_neg h]

theorem df_drop_ignores_ok {rows : List PRow} {ps : List PyPat}
    (h : ∀ r ∈ rows, r.desc.isSome) :
    df_drop_ignores rows ps =
      .ok (rows.filter fun r => !(searchJoin ps (descStr r))) := by
  unfold df_drop_ignores
  have hnone : ¬ ((rows.any fun r => r.desc.isNone) = true) := by
    intro hx
    obtain ⟨r, hr, hno⟩ := List.any_eq_true.mp hx
    have hs := h r hr
    rw [Option.isNone_iff_eq_none] at hno
    rw [hno] at hs
    exact absurd hs (by simp)
  rw [if_neg hnone]
  dsimp only
  by_cases hig : (rows.filter fun r => searchJoin ps (descStr r)).isEmpty
  · rw [if_pos hig, filter_not_of_none rows _ hig]
  · rw [if_neg hig]

/-- Normalization succeeds whenever every raw row carries a
description, and its output is (up to order) the filter chain: keep a
row unless it is entirely `na` or its stripped description matches an
ignore pattern. -/
theorem parse_input_ok {rows : List RawRow} {ps : List PyPat}
    (hdesc : ∀ r ∈ rows, r.desc.isSome) :
    ∃ out, parse_input rows ps = .ok out ∧ out.Perm (parseSpecList rows ps) := by
  have hkept : ∀ r ∈ df_drop_na (rows.map coerceRow), r.desc.isSome := by
    intro r hr
    rw [df_drop_na_eq, List.mem_filter] at hr
    obtain ⟨hr, _⟩ := hr
    obtain ⟨raw, hraw, rfl⟩ := List.mem_map.mp hr
    exact hdesc raw hraw
  have hstripped : ∀ r ∈ (List.insertionSort PRowLE
      (df_drop_na (rows.map coerceRow))).map stripRow, r.desc.isSome := by
    intro r hr
    obtain ⟨r0, hr0, rfl⟩ := List.mem_map.mp hr
    have hr0' : r0 ∈ df_drop_na (rows.map coerceRow) :=
      (List.perm_insertionSort PRowLE _).mem_iff.mp hr0
    have := hkept r0 hr0'
    unfold stripRow
    cases hx : r0.desc with
    | none => rw [hx] at this; exact absurd this (by simp)
    | some s => simp [hx]
  refine ⟨_, df_drop_ignores_ok hstripped, ?_⟩
  unfold parseSpecList
  apply List.Perm.filter
  apply List.Perm.map
  rw [df_drop_na_eq]
  exact List.perm_insertionSort PRowLE _

/-- Building a regex that matches a literal string. -/
def strRe : List Char → Regex
  | [] => .eps
  | c :: t => .cat (.lit c) (strRe t)

def litStr (s : String) : Regex := strRe s.data

/-- The BMO credit-card ignore pattern `^TRSF FROM.*285`. -/
def TRSF_PAT : PyPat :=
  { anchored := true,
    re := .cat (litStr "TRSF FROM") (.cat (.star .any) (litStr "285")) }

/-!
The `update` command (`commands.Update.run`), over a file system
modeled as a path-to-workbook association list.  `Workbook()` starts
with one active sheet, which `run` removes at once, so a missing path
yields a workbook with no sheets.
-/

/-- A fresh workbook after `wb.remove(wb.active)`. -/
def emptyWorkbook : Workbook := { sheets := [] }

abbrev FileSystem := List (String × Workbook)

/-- `wb.save(path)`: overwrite the file, creating it if missing. -/
def saveWorkbook (path : String) (wb : Workbook) (fs : FileSystem) : FileSystem :=
  if (alistGet path fs).isSome then alistSet path wb fs else fs ++ [(path, wb)]

/-- `Update.run` after its input has been normalized to `df`: load the
workbook at `path` (or create an empty one), merge, and save unless
`trial` is set. -/
def Update.run (fs : FileSystem) (path : String) (trial : Bool) (df : List Txn) :
    Except String FileSystem :=
  let wb := match alistGet path fs with
    | some wb => wb
    | none => emptyWorkbook
  match update_xlbudget wb df with
  | .error e => .error e
  | .ok wb' => if trial then .ok fs else .ok (saveWorkbook path wb' fs)

theorem spanWFb_empty (o n : Date) : spanWFb emptyWorkbook o n = true := by
  unfold spanWFb
  rw [List.all_eq_true]
  intro y _
  rw [List.all_eq_true]
  intro m _
  rfl

theorem alistGet_append_self {α : Type} {l : List (String × α)} {k : String} (v : α)
    (h : alistGet k l = none) : alistGet k (l ++ [(k, v)]) = some v := by
  induction l with
  | nil => simp [alistGet]
  | cons p t ih =>
    obtain ⟨k', v'⟩ := p
    rw [List.cons_append]
    unfold alistGet at h ⊢
    by_cases hk : k' = k
    · rw [if_pos hk] at h
      exact absurd h (by simp)
    · rw [if_neg hk] at h ⊢
      exact ih h

/-!
Concrete instances used by the witnesses and counterexamples.
-/

def exRowOld : Txn := { date := { year := 2023, month := 1, day := 10 }, description := "OLD", amount := -5 }

def exRowNew : Txn := { date := { year := 2023, month := 1, day := 5 }, description := "NEW", amount := -3 }

def exTab : MonthTable := { ref := "F17:H18", rows := [exRowOld] }

def exSheet : Sheet := { tables := [("_January2023", exTab)], summaryRef := "A2:D14" }

def exWb : Workbook := { sheets := [("2023", exSheet)] }

def exDf : List Txn := [exRowNew]

/-- C1: merge completeness.  On a workbook whose span tables are well
formed and a nonempty normalized batch, the update succeeds and the
multiset of rows stored across the span's month tables afterwards is
exactly the deduplicated union of the batch with the previously stored
rows. -/
theorem spec_C1 {wb : Workbook} {df : List Txn} (hne : df ≠ [])
    (hwf : spanWFb wb (oldestDate df) (newestDate df) = true)
    (hvm : validMonthsb df = true) :
    ∃ wb', update_xlbudget wb df = .ok wb' ∧
      (collectStored wb' (oldestDate df) (newestDate df)).Perm
        (df_drop_duplicates (df ++ collectStored wb (oldestDate df) (newestDate df))) := by
  obtain ⟨wb', hupd, hperm⟩ := update_span_perm hne hwf hvm
  exact ⟨wb', hupd, hperm.trans (mergedSorted_perm df _)⟩

theorem spec_C1_witness :
    exDf ≠ [] ∧ spanWFb exWb (oldestDate exDf) (newestDate exDf) = true ∧
      validMonthsb exDf = true ∧
      ∃ wb', update_xlbudget exWb exDf = .ok wb' ∧
        (collectStored wb' (oldestDate exDf) (newestDate exDf)).Perm
          (df_drop_duplicates (exDf ++ collectStored exWb (oldestDate exDf) (newestDate exDf))) :=
  ⟨by decide, by decide, by decide, spec_C1 (by decide) (by decide) (by decide)⟩

/-- C2: idempotence of the merge.  Under the same well-formedness
hypotheses, running the update twice with the same batch leaves every
month table (rows and range reference alike) exactly as one run does:
the second pass drops all of its records as duplicates. -/
theorem spec_C2 {wb : Workbook} {df : List Txn} (hne : df ≠ [])
    (hwf : spanWFb wb (oldestDate df) (newestDate df) = true)
    (hvm : validMonthsb df = true) :
    ∃ wb' wb'', update_xlbudget wb df = .ok wb' ∧ update_xlbudget wb' df = .ok wb'' ∧
      ∀ y m, 1 ≤ m → m ≤ 12 → monthTable? wb'' y m = monthTable? wb' y m :=
  update_idem hne hwf hvm

theorem spec_C2_witness :
    exDf ≠ [] ∧ spanWFb exWb (oldestDate exDf) (newestDate exDf) = true ∧
      validMonthsb exDf = true ∧
      ∃ wb' wb'', update_xlbudget exWb exDf = .ok wb' ∧
        update_xlbudget wb' exDf = .ok wb'' ∧
        ∀ y m, 1 ≤ m → m ≤ 12 → monthTable? wb'' y m = monthTable? wb' y m :=
  ⟨by decide, by decide, by decide, spec_C2 (by decide) (by decide) (by decide)⟩

theorem txnLe_dateLe {a b : Txn} (h : TxnLE a b) : dateLe a.date b.date = true := by
  unfold TxnLE txnLe at h
  rw [Bool.or_eq_true] at h
  rcases h with h | h
  · rw [dateLt_iff] at h
    rw [dateLe_iff]
    omega
  · rw [Bool.and_eq_true] at h
    have hd : a.date = b.date := of_decide_eq_true h.1
    rw [hd, dateLe_iff]
    omega

def c3RowA : Txn := { date := { year := 2023, month := 1, day := 20 }, description := "A", amount := 1 }

def c3RowB : Txn := { date := { year := 2023, month := 1, day := 2 }, description := "B", amount := 2 }

def c3Tab : MonthTable := { ref := "F17:H19", rows := [c3RowA, c3RowB] }

def c3FebTab : MonthTable := { ref := "J17:L18", rows := [] }

def c3Sheet : Sheet := { tables := [("_January2023", c3Tab), ("_February2023", c3FebTab)], summaryRef := "A2:D14" }

def c3Wb : Workbook := { sheets := [("2023", c3Sheet)] }

def c3Df : List Txn := [{ date := { year := 2023, month := 2, day := 1 }, description := "N", amount := 3 }]

/-- The month table a successful update leaves at `(y, m)`. -/
def updatedTable (wb : Workbook) (df : List Txn) (y m : Nat) : Option MonthTable :=
  match update_xlbudget wb df with
  | .error _ => none
  | .ok wb' => monthTable? wb' y m

/-- C3 counterexample: the update only rewrites the month tables inside
the span of the new batch.  Here the batch is dated February 2023, the
January 2023 table holds rows dated the 20th then the 2nd, and after a
completed update that table still holds them in that (descending)
order, so dates are not non-decreasing in every month table. -/
theorem spec_C3_cex :
    updatedTable c3Wb c3Df 2023 1 = some c3Tab ∧
      storedRows c3Tab = [c3RowA, c3RowB] ∧
      ¬ List.Pairwise (fun a b : Txn => dateLe a.date b.date = true) [c3RowA, c3RowB] := by
  refine ⟨by decide, by decide, ?_⟩
  intro h
  have := List.rel_of_pairwise_cons h (List.mem_cons_self c3RowB [])
  exact absurd this (by decide)

/-- C3 (amended): order invariant on the rewritten tables.  After a
successful update, every month table inside the span of the new batch
stores rows whose dates are non-decreasing from the first data row to
the last; tables outside the span are left as they were (and need not
be sorted, as the counterexample shows). -/
theorem spec_C3 {wb : Workbook} {df : List Txn} (hne : df ≠ [])
    (hwf : spanWFb wb (oldestDate df) (newestDate df) = true)
    (hvm : validMonthsb df = true) :
    ∃ wb', update_xlbudget wb df = .ok wb' ∧
      ∀ y ∈ spanYears (oldestDate df) (newestDate df),
        ∀ m ∈ spanMonths (oldestDate df) (newestDate df) y,
        ∀ tab, monthTable? wb' y m = some tab →
          List.Pairwise (fun a b : Txn => dateLe a.date b.date = true)
            (storedRows tab) := by
  obtain ⟨wbC, wb', hcreate, hupd, hpres, hspan, hother⟩ := update_master hne hwf hvm
  refine ⟨wb', hupd, ?_⟩
  intro y hy m hm tab htab
  obtain ⟨tab0, pos0, _, _, _, _, hfin, hchar⟩ := hspan y hy m hm
  rw [hchar tab htab]
  have hsorted : List.Pairwise TxnLE (mergeList wb df) := mergedSorted_sorted df _
  have hsub : List.Pairwise TxnLE (routedSpan (mergeList wb df) y m) := by
    unfold routedSpan routedTo
    exact List.Pairwise.sublist (List.filter_sublist _) hsorted
  exact hsub.imp fun h => txnLe_dateLe h

theorem spec_C3_witness :
    exDf ≠ [] ∧ spanWFb exWb (oldestDate exDf) (newestDate exDf) = true ∧
      validMonthsb exDf = true ∧
      ∃ wb', update_xlbudget exWb exDf = .ok wb' ∧
        ∀ y ∈ spanYears (oldestDate exDf) (newestDate exDf),
          ∀ m ∈ spanMonths (oldestDate exDf) (newestDate exDf) y,
          ∀ tab, monthTable? wb' y m = some tab →
            List.Pairwise (fun a b : Txn => dateLe a.date b.date = true)
              (storedRows tab) :=
  ⟨by decide, by decide, by decide, spec_C3 (by decide) (by decide) (by decide)⟩

/-- C4: table layout construction and range floor.  Parsing `"A2:C4"`
yields first column index 1, `next_row` 3 and `initial_last_row` 4; in
general `get_ref` reports last row `max (next_row - 1) (header_row + 1)`
— so a table with no written rows still reports one data row — and the
three successive cursor increments of the concrete scenario produce
`"A2:C3"`, `"A2:C3"`, `"A2:C4"`, `"A2:C5"`. -/
theorem spec_C4 :
    (∀ p : TablePosition, p.get_ref =
      p.first_col ++ natToDecStr p.header_row ++ ":" ++ p.last_col ++
        natToDecStr (max (p.next_row - 1) (p.header_row + 1))) ∧
    ∃ p, TablePosition.init? "A2:C4" = some p ∧
      p.first_col_ind = 1 ∧ p.next_row = 3 ∧ p.initial_last_row = 4 ∧
      p.get_ref = "A2:C3" ∧
      (p.advance 1).get_ref = "A2:C3" ∧
      (p.advance 2).get_ref = "A2:C4" ∧
      (p.advance 3).get_ref = "A2:C5" := by
  constructor
  · intro p
    unfold TablePosition.get_ref
    have hmax : (if p.next_row - 1 ≥ p.header_row + 1
        then p.next_row - 1 else p.header_row + 1) =
          max (p.next_row - 1) (p.header_row + 1) := by
      split_ifs <;> omega
    rw [hmax]
  · exact ⟨{ first_col := "A", header_row := 2, next_row := 3, first_col_ind := 1, last_col := "C", initial_last_row := 4 }, by decide, by decide, by decide, by decide, by decide, by decide, by decide, by decide⟩

def c5p : TablePosition := { first_col := "A", header_row := 2, next_row := 3, first_col_ind := 1, last_col := "C", initial_last_row := 4 }

def c5q : TablePosition := { first_col := "A", header_row := 2, next_row := 3, first_col_ind := 1, last_col := "C", initial_last_row := 5 }

/-- C5 counterexample: the constructor always resets `next_row` to
`header_row + 1`.  Starting from `"A2:C4"` (header row 2), advancing
the cursor by 3 and re-parsing the computed range `"A2:C5"` yields
`next_row = 3`, not `header_row + 1 + 3 = 6`. -/
theorem spec_C5_cex :
    TablePosition.init? "A2:C4" = some c5p ∧
      (c5p.advance 3).get_ref = "A2:C5" ∧
      TablePosition.init? ((c5p.advance 3).get_ref) = some c5q ∧
      c5q.next_row = 3 ∧ c5p.header_row + 1 + 3 = 6 ∧
      ¬ (c5q.next_row = c5p.header_row + 1 + 3) := by
  refine ⟨by decide, by decide, by decide, by decide, by decide, by decide⟩

/-- C5 (amended): round trip of the table layout.  For a table position
freshly parsed from a reference (so `next_row = header_row + 1`),
writing `N` rows and re-parsing the computed range yields a position
with the same header row, `next_row` reset to `header_row + 1`, and
`initial_last_row = header_row + max N 1` — the written count survives
in `initial_last_row`, not in `next_row`. -/
theorem spec_C5 {ref : String} {p : TablePosition}
    (hp : TablePosition.init? ref = some p) (N : Nat) :
    ∃ q, TablePosition.init? ((p.advance N).get_ref) = some q ∧
      q.next_row = p.header_row + 1 ∧
      q.header_row = p.header_row ∧
      q.initial_last_row = p.header_row + max N 1 := by
  obtain ⟨hc1, hc2⟩ := init?_colStr hp
  rw [get_ref_eq (init?_next_row hp), init?_of_format hc1 hc2]
  exact ⟨_, rfl, rfl, rfl, rfl⟩

theorem spec_C5_witness :
    TablePosition.init? "A2:C4" = some c5p ∧
      ∃ q, TablePosition.init? ((c5p.advance 3).get_ref) = some q ∧
        q.next_row = c5p.header_row + 1 ∧
        q.header_row = c5p.header_row ∧
        q.initial_last_row = c5p.header_row + max 3 1 :=
  ⟨by decide, spec_C5 (by decide : TablePosition.init? "A2:C4" = some c5p) 3⟩

def c6Wb : Workbook := { sheets := [("2022", newYearSheet 2022)] }

/-- C6 counterexample: `create_year_sheet` always inserts at index 0.
A workbook whose sheets are `["2022"]` (trivially ascending by year)
becomes `["2023", "2022"]` after creating year 2023 — descending, not
ascending. -/
theorem spec_C6_cex :
    c6Wb.sheets.map Prod.fst = [natToDecStr 2022] ∧
      ∃ wb', create_year_sheet c6Wb 2023 = .ok wb' ∧
        wb'.sheets.map Prod.fst = [natToDecStr 2023, natToDecStr 2022] ∧
        ¬ (2023 ≤ 2022) :=
  ⟨by decide, { sheets := (natToDecStr 2023, newYearSheet 2023) :: c6Wb.sheets },
    by decide, by decide, by decide⟩

/-- C6 (amended): sheet insertion position.  When the year is not
already present, `create_year_sheet` prepends the new year sheet at
index 0 (the front of the workbook), regardless of the order of the
existing sheets; ascending year order is therefore not preserved in
general (newest-first order is). -/
theorem spec_C6 {wb : Workbook} {y : Nat}
    (h : (wb.sheets.map Prod.fst).contains (natToDecStr y) = false) :
    create_year_sheet wb y =
      .ok { sheets := (natToDecStr y, newYearSheet y) :: wb.sheets } := by
  unfold create_year_sheet
  have hcond : ¬ ((wb.sheets.map Prod.fst).contains (natToDecStr y) = true) := by
    rw [h]
    simp
  rw [if_neg hcond]

theorem spec_C6_witness :
    (c6Wb.sheets.map Prod.fst).contains (natToDecStr 2023) = false ∧
      create_year_sheet c6Wb 2023 =
        .ok { sheets := (natToDecStr 2023, newYearSheet 2023) :: c6Wb.sheets } :=
  ⟨by decide, spec_C6 (by decide)⟩

def c7Raw : RawRow := { dateCell := .malformed, desc := some "JUNK", amount := some 5 }

/-- C7 counterexample: a row whose date fails coercion is not
discarded.  `to_datetime(..., errors="coerce")` turns the malformed
date into `NaT`, and `df_drop_na` only drops rows whose every field is
`na`; this row keeps its description and amount, so it survives
normalization with a null date. -/
theorem spec_C7_cex :
    to_datetime_coerce c7Raw.dateCell = none ∧
      parse_input [c7Raw] [TRSF_PAT] =
        .ok [{ date := none, desc := some "JUNK", amount := some 5 }] := by
  refine ⟨by decide, by decide⟩

/-- C7 (amended): malformed dates never make normalization fatal, but
the rows are not discarded either.  When every raw row carries a
description, `parse_input` succeeds, its output is (as a multiset) the
rows that are not entirely `na` and whose stripped description matches
no ignore pattern, and every row with an uncoercible date but some
other data is kept in the output with a null date. -/
theorem spec_C7 {rows : List RawRow} {ps : List PyPat}
    (hdesc : ∀ r ∈ rows, r.desc.isSome) :
    ∃ out, parse_input rows ps = .ok out ∧ out.Perm (parseSpecList rows ps) ∧
      ∀ raw ∈ rows, to_datetime_coerce raw.dateCell = none →
        prowIsNa (coerceRow raw) = false →
        searchJoin ps (descStr (stripRow (coerceRow raw))) = false →
        (stripRow (coerceRow raw)).date = none ∧
          stripRow (coerceRow raw) ∈ out := by
  obtain ⟨out, hok, hperm⟩ := parse_input_ok hdesc
  refine ⟨out, hok, hperm, ?_⟩
  intro raw hraw hcoerce hna hig
  constructor
  · unfold stripRow coerceRow
    exact hcoerce
  · rw [hperm.mem_iff]
    unfold parseSpecList
    rw [List.mem_filter]
    refine ⟨?_, by simp [hig]⟩
    apply List.mem_map.mpr
    refine ⟨coerceRow raw, ?_, rfl⟩
    rw [List.mem_filter]
    exact ⟨List.mem_map.mpr ⟨raw, hraw, rfl⟩, by simp [hna]⟩

theorem spec_C7_witness :
    (∀ r ∈ [c7Raw], r.desc.isSome) ∧
      ∃ out, parse_input [c7Raw] [TRSF_PAT] = .ok out ∧
        out.Perm (parseSpecList [c7Raw] [TRSF_PAT]) ∧
        ∀ raw ∈ [c7Raw], to_datetime_coerce raw.dateCell = none →
          prowIsNa (coerceRow raw) = false →
          searchJoin [TRSF_PAT] (descStr (stripRow (coerceRow raw))) = false →
          (stripRow (coerceRow raw)).date = none ∧
            stripRow (coerceRow raw) ∈ out :=
  ⟨by decide, spec_C7 (by decide)⟩

def c8RawT : RawRow := { dateCell := .parseable { year := 2023, month := 3, day := 1 }, desc := some "TRSF FROM 285 SAVINGS", amount := some (-50) }

def c8RawC : RawRow := { dateCell := .parseable { year := 2023, month := 3, day := 2 }, desc := some "COFFEE SHOP", amount := some (-4) }

def c8OutC : PRow := { date := some { year := 2023, month := 3, day := 2 }, desc := some "COFFEE SHOP", amount := some (-4) }

/-- C8: ignore filtering.  Joining the patterns with `|` searches like
the disjunction of the individual searches; under that join,
`df_drop_ignores` drops exactly the rows whose description matches at
least one pattern; and normalizing the two-row scenario under the sole
pattern `^TRSF FROM.*285` leaves exactly the `"COFFEE SHOP"` record. -/
theorem spec_C8 :
    (∀ ps : List PyPat, ps ≠ [] → ∀ s : String,
      searchJoin ps s = ps.any fun p => reSearch p s.data) ∧
    (∀ (rows : List PRow) (ps : List PyPat), ps ≠ [] →
      (∀ r ∈ rows, r.desc.isSome) →
      df_drop_ignores rows ps =
        .ok (rows.filter fun r => !(ps.any fun p => reSearch p (descStr r).data))) ∧
    parse_input [c8RawT, c8RawC] [TRSF_PAT] = .ok [c8OutC] := by
  refine ⟨?_, ?_, by decide⟩
  · intro ps hne s
    cases ps with
    | nil => exact absurd rfl hne
    | cons p t => exact searchJoinAux_true (p :: t) s.data
  · intro rows ps hps hdesc
    cases ps with
    | nil => exact absurd rfl hps
    | cons p t =>
      rw [df_drop_ignores_ok hdesc]
      congr 1
      apply List.filter_congr
      intro r _
      rw [show searchJoin (p :: t) (descStr r) =
        searchJoinAux (p :: t) (descStr r).data true from rfl]
      rw [searchJoinAux_true]

theorem spec_C8_witness :
    searchJoin [TRSF_PAT] "TRSF FROM 1285" =
        ([TRSF_PAT].any fun p => reSearch p "TRSF FROM 1285".data) ∧
      df_drop_ignores [c8OutC] [TRSF_PAT] =
        .ok ([c8OutC].filter fun r =>
          !([TRSF_PAT].any fun p => reSearch p (descStr r).data)) :=
  ⟨spec_C8.1 [TRSF_PAT] (by decide) "TRSF FROM 1285",
    spec_C8.2.1 [c8OutC] [TRSF_PAT] (by decide) (by decide)⟩

/-- C9: update on a missing ledger path.  When no file exists at the
path, `Update.run` does not fail: it starts from a workbook with no
sheets, performs the full merge, and saves the result at the path —
creating the ledger — while a trial run leaves the file system
untouched. -/
theorem spec_C9 {fs : FileSystem} {path : String} {df : List Txn}
    (hmissing : alistGet path fs = none) (hne : df ≠ [])
    (hvm : validMonthsb df = true) :
    ∃ wb', update_xlbudget emptyWorkbook df = .ok wb' ∧
      Update.run fs path false df = .ok (fs ++ [(path, wb')]) ∧
      alistGet path (fs ++ [(path, wb')]) = some wb' ∧
      Update.run fs path true df = .ok fs := by
  have hwfE : spanWFb emptyWorkbook (oldestDate df) (newestDate df) = true :=
    spanWFb_empty _ _
  obtain ⟨wbC, wb', hcreate, hupd, hrest⟩ := update_master hne hwfE hvm
  refine ⟨wb', hupd, ?_, alistGet_append_self wb' hmissing, ?_⟩
  · unfold Update.run
    rw [hmissing]
    dsimp only
    rw [hupd]
    dsimp only
    rw [if_neg (by simp)]
    unfold saveWorkbook
    rw [hmissing]
    rfl
  · unfold Update.run
    rw [hmissing]
    dsimp only
    rw [hupd]
    rfl

theorem spec_C9_witness :
    alistGet "budget.xlsx" ([] : FileSystem) = none ∧ exDf ≠ [] ∧
      validMonthsb exDf = true ∧
      ∃ wb', update_xlbudget emptyWorkbook exDf = .ok wb' ∧
        Update.run ([] : FileSystem) "budget.xlsx" false exDf =
          .ok (([] : FileSystem) ++ [("budget.xlsx", wb')]) ∧
        alistGet "budget.xlsx" (([] : FileSystem) ++ [("budget.xlsx", wb')]) = some wb' ∧
        Update.run ([] : FileSystem) "budget.xlsx" true exDf = .ok ([] : FileSystem) :=
  ⟨by decide, by decide, by decide, spec_C9 (by decide) (by decide) (by decide)⟩

/-- C10: in-batch duplicates survive normalization but are collapsed by
the merge.  `parse_input` only warns: its output holds every row of the
filter chain with full multiplicity, so two identical raw rows yield
two identical records.  `update_xlbudget` then deduplicates: any record
occurring at least twice in the batch is stored exactly once in the
updated workbook's span tables. -/
theorem spec_C10 :
    (∀ (rows : List RawRow) (ps : List PyPat), (∀ r ∈ rows, r.desc.isSome) →
      ∃ out, parse_input rows ps = .ok out ∧
        ∀ r : PRow, out.count r = (parseSpecList rows ps).count r) ∧
    (∀ (wb : Workbook) (df : List Txn), df ≠ [] →
      spanWFb wb (oldestDate df) (newestDate df) = true →
      validMonthsb df = true →
      ∀ t : Txn, 2 ≤ df.count t →
        ∃ wb', update_xlbudget wb df = .ok wb' ∧
          (collectStored wb' (oldestDate df) (newestDate df)).count t = 1) := by
  constructor
  · intro rows ps hdesc
    obtain ⟨out, hok, hperm⟩ := parse_input_ok hdesc
    exact ⟨out, hok, fun r => hperm.count_eq r⟩
  · intro wb df hne hwf hvm t hcount
    obtain ⟨wb', hupd, hperm⟩ := update_span_perm hne hwf hvm
    refine ⟨wb', hupd, ?_⟩
    rw [hperm.count_eq]
    have htmem : t ∈ df := List.count_pos_iff.mp (by omega)
    unfold mergeList
    rw [(mergedSorted_perm df _).count_eq]
    exact count_df_drop_duplicates (List.mem_append.mpr (Or.inl htmem))

def c10Raw : RawRow := { dateCell := .parseable { year := 2023, month := 1, day := 5 }, desc := some "NEW", amount := some (-3) }

theorem spec_C10_witness :
    ((∀ r ∈ [c10Raw, c10Raw], r.desc.isSome) ∧
      ∃ out, parse_input [c10Raw, c10Raw] [TRSF_PAT] = .ok out ∧
        ∀ r : PRow, out.count r = (parseSpecList [c10Raw, c10Raw] [TRSF_PAT]).count r) ∧
      (exRowNew :: exDf ≠ [] ∧
        spanWFb exWb (oldestDate (exRowNew :: exDf)) (newestDate (exRowNew :: exDf)) = true ∧
        validMonthsb (exRowNew :: exDf) = true ∧
        2 ≤ (exRowNew :: exDf).count exRowNew ∧
        ∃ wb', update_xlbudget exWb (exRowNew :: exDf) = .ok wb' ∧
          (collectStored wb' (oldestDate (exRowNew :: exDf))
            (newestDate (exRowNew :: exDf))).count exRowNew = 1) :=
  ⟨⟨by decide, spec_C10.1 [c10Raw, c10Raw] [TRSF_PAT] (by decide)⟩,
    by decide, by decide, by decide, by decide,
    spec_C10.2 exWb (exRowNew :: exDf) (by decide) (by decide) (by decide) exRowNew (by decide)⟩
